import Mathlib

/-!
A formal model of `src/fractal_3d.py`: recursive subdivision of a base
octahedron with fractal / planet displacement of new midpoint vertices,
and the planet colorscale construction.

Python floats are modelled as real numbers.  `random.uniform(a, b)` is
modelled, following CPython's definition `a + (b - a) * random()`, as a
function of an explicit stream of unit draws.  Numpy row vectors are
triples of reals; numpy integer arrays are lists.
-/

namespace Fractal3d

/-- A 3-component position (a numpy row vector). -/
abbrev Vec3 : Type := ℝ × ℝ × ℝ

/-- A triangular face: an ordered triple of vertex indices. -/
abbrev Face : Type := ℕ × ℕ × ℕ

/-- The per-pass `splits` dictionary: canonical index pair ↦ split vertex index,
modelled as an association list with most recent insertion first. -/
abbrev Splits : Type := List ((ℕ × ℕ) × ℕ)

/-- The zero vector. -/
def vzero : Vec3 := (0, 0, 0)

/-- Scalar times vector, componentwise (`0.5 * (vec_1 + vec_2)`). -/
def scale (c : ℝ) (v : Vec3) : Vec3 := (c * v.1, c * v.2.1, c * v.2.2)

/-- Vector times scalar, componentwise (`unit_vec * midpoint_factor`). -/
def vmul (v : Vec3) (c : ℝ) : Vec3 := (v.1 * c, v.2.1 * c, v.2.2 * c)

/-- Vector divided by scalar, componentwise (`midpoint_vec / norm`). -/
noncomputable def vdiv (v : Vec3) (c : ℝ) : Vec3 := (v.1 / c, v.2.1 / c, v.2.2 / c)

/-- Euclidean dot product. -/
def dot (v w : Vec3) : ℝ := v.1 * w.1 + v.2.1 * w.2.1 + v.2.2 * w.2.2

/-- `np.linalg.norm`: the Euclidean norm. -/
noncomputable def vnorm (v : Vec3) : ℝ := Real.sqrt (dot v v)

/-- The state of Python's global `random` generator: a stream of unit
draws together with the current position in the stream. -/
abbrev Rng : Type := (ℕ → ℝ) × ℕ

/-- CPython's `random.uniform(a, b)`, which returns `a + (b - a) * random()`,
consuming one draw. -/
def uniform (lo hi : ℝ) (g : Rng) : ℝ × Rng :=
  (lo + (hi - lo) * g.1 g.2, (g.1, g.2 + 1))

/-- The `factor` argument of `fractal_interpolate`: a float or a 2-tuple
(the code tests `type(factor) == tuple`). -/
inductive Factor where
  | scalar (x : ℝ)
  | pair (lo hi : ℝ)

/-- `fractal_interpolate(vec_1, vec_2, factor)`. -/
noncomputable def fractal_interpolate (vec_1 vec_2 : Vec3) (factor : Factor) (g : Rng) : Vec3 × Rng :=
  let fg : ℝ × Rng :=
    match factor with
    | .scalar x => (x, g)
    | .pair lo hi => uniform lo hi g
  let factor_1 := vnorm vec_1
  let factor_2 := vnorm vec_2
  let midpoint_vec := scale 0.5 (vec_1 + vec_2)
  let midpoint_factor := 0.5 * (factor_1 + factor_2)
  let unit_vec := vdiv midpoint_vec (vnorm midpoint_vec)
  (vmul (vmul unit_vec midpoint_factor) fg.1, fg.2)

/-- `create_octahedron`: the 6 unit vertices. -/
def octahedron_vertices : List Vec3 :=
  [(1, 0, 0), (0, 1, 0), (0, 0, 1), (-1, 0, 0), (0, -1, 0), (0, 0, -1)]

/-- `create_octahedron`: the 8 faces. -/
def octahedron_faces : List Face :=
  [(0, 1, 2), (1, 3, 2), (3, 4, 2), (4, 0, 2), (0, 5, 1), (1, 5, 3), (3, 5, 4), (4, 5, 0)]

/-- `create_octahedron()`: the pair `(vertices, faces)`. -/
def create_octahedron : List Vec3 × List Face := (octahedron_vertices, octahedron_faces)

/-- Canonicalization of an index pair: the swap
`if vertex_1 > vertex_2: vertex_1, vertex_2 = vertex_2, vertex_1`. -/
def canon (a b : ℕ) : ℕ × ℕ := if a > b then (b, a) else (a, b)

/-- `splits.get((vertex_1, vertex_2), None)` on the association list. -/
def slookup : Splits → (ℕ × ℕ) → Option ℕ
  | [], _ => none
  | (k, v) :: rest, key => if key = k then some v else slookup rest key

/-- An interpolation rule carrying an explicit generator state `σ`
(the `interpolate(v1, v2)` closures of the drivers). -/
abbrev Interp (σ : Type) : Type := Vec3 → Vec3 → σ → Vec3 × σ

/-- Result of `split_vertex`: the returned index together with the
(possibly mutated) `vertices`, `splits` and generator state. -/
structure SplitRes (σ : Type) where
  idx : ℕ
  verts : List Vec3
  splits : Splits
  rng : σ

/-- `split_vertex(vertex_1, vertex_2, vertices, splits, interpolate)`. -/
def split_vertex (interp : Interp σ) (vertex_1 vertex_2 : ℕ) (vertices : List Vec3)
    (splits : Splits) (g : σ) : SplitRes σ :=
  let key := canon vertex_1 vertex_2
  match slookup splits key with
  | some i => ⟨i, vertices, splits, g⟩
  | none =>
      let r := interp (vertices.getD key.1 vzero) (vertices.getD key.2 vzero) g
      ⟨vertices.length, vertices ++ [r.1], (key, vertices.length) :: splits, r.2⟩

/-- Result of one refinement pass. -/
structure PassRes (σ : Type) where
  verts : List Vec3
  splits : Splits
  rng : σ
  faces : List Face

/-- The loop of `refine_mesh`, processing the face list in order while
threading `new_vertices`, `splits` and the generator. -/
def refineAux (interp : Interp σ) : List Face → List Vec3 → Splits → σ → PassRes σ
  | [], vs, sp, g => ⟨vs, sp, g, []⟩
  | (a, b, c) :: fs, vs, sp, g =>
      let r1 := split_vertex interp a b vs sp g
      let r2 := split_vertex interp b c r1.verts r1.splits r1.rng
      let r3 := split_vertex interp c a r2.verts r2.splits r2.rng
      let rest := refineAux interp fs r3.verts r3.splits r3.rng
      ⟨rest.verts, rest.splits, rest.rng,
        (r3.idx, a, r1.idx) :: (r1.idx, b, r2.idx) :: (r2.idx, c, r3.idx) ::
          (r1.idx, r2.idx, r3.idx) :: rest.faces⟩

/-- `refine_mesh(vertices, faces, interpolate)`: one subdivision pass,
starting from an empty `splits` dictionary. -/
def refine_mesh (interp : Interp σ) (vertices : List Vec3) (faces : List Face) (g : σ) :
    List Vec3 × List Face × σ :=
  let r := refineAux interp faces vertices [] g
  (r.verts, r.faces, r.rng)

/-- The split-index map realised by one pass of `refine_mesh`: the content
of the final `splits` dictionary, read through `canon`. -/
def splitMap (interp : Interp σ) (vertices : List Vec3) (faces : List Face) (g : σ)
    (a b : ℕ) : ℕ :=
  (slookup (refineAux interp faces vertices [] g).splits (canon a b)).getD 0

/-- The refinement loop shared by `fractal_refinement` and `cached_planet`:
apply `refine_mesh` with the pass-indexed rule, starting at pass `i`. -/
def refineFrom (rules : ℕ → Interp σ) :
    ℕ → ℕ → List Vec3 × List Face × σ → List Vec3 × List Face × σ
  | _, 0, st => st
  | i, k + 1, st => refineFrom rules (i + 1) k (refine_mesh (rules i) st.1 st.2.1 st.2.2)

/-- `fractal_refinement()` with `refinements = n` and per-pass overshoot
slider values `xs i` (the code passes the tuple `factor=(x, x)`). -/
noncomputable def fractal_refinement (n : ℕ) (xs : ℕ → ℝ) (g : Rng) : List Vec3 × List Face × Rng :=
  refineFrom (fun i v1 v2 => fractal_interpolate v1 v2 (.pair (xs i) (xs i))) 0 n
    (octahedron_vertices, octahedron_faces, g)

/-- `cached_planet(refinements, offset_range, dampen)`. -/
noncomputable def cached_planet (n : ℕ) (offset_range dampen : ℝ) (g : Rng) :
    List Vec3 × List Face × Rng :=
  refineFrom
    (fun i v1 v2 => fractal_interpolate v1 v2
      (.pair (1 - offset_range * dampen ^ i) (1 + offset_range * dampen ^ i))) 0 n
    (octahedron_vertices, octahedron_faces, g)

/-- The loop of `planet_colorscale` over the configured `(elevation, color)`
stops: `if not colorscale: colorscale.append((0.0, color))` then
`colorscale.append((elevation, color))`. -/
def colorscaleLoop (colorscale : List (ℝ × String)) : List (ℝ × String) → List (ℝ × String)
  | [] => colorscale
  | (elevation, color) :: rest =>
      let cs := if colorscale.isEmpty then colorscale ++ [(0, color)] else colorscale
      colorscaleLoop (cs ++ [(elevation, color)]) rest

/-- `planet_colorscale()` as a function of the configured slider stops. -/
def planet_colorscale (stops : List (ℝ × String)) : List (ℝ × String) :=
  colorscaleLoop [] stops

/-- The vertex indices of a face. -/
def vset (f : Face) : List ℕ := [f.1, f.2.1, f.2.2]

/-- The three undirected (canonicalized) edges of a face. -/
def edgesOf (f : Face) : List (ℕ × ℕ) := [canon f.1 f.2.1, canon f.2.1 f.2.2, canon f.2.2 f.1]

/-- All face edges of a mesh, with multiplicity. -/
def allEdges (faces : List Face) : List (ℕ × ℕ) := faces.flatMap edgesOf

/-- The number of distinct undirected edges of a face list. -/
def uniqueEdgeCount (faces : List Face) : ℕ := (allEdges faces).dedup.length

/-- All three indices of the face are valid. -/
def validFace (n : ℕ) (f : Face) : Prop := f.1 < n ∧ f.2.1 < n ∧ f.2.2 < n

/-- The face references three distinct vertices. -/
def distinctFace (f : Face) : Prop := f.1 ≠ f.2.1 ∧ f.2.1 ≠ f.2.2 ∧ f.1 ≠ f.2.2

/-- Closedness: every undirected edge occurs in exactly two faces. -/
def closed (faces : List Face) : Prop :=
  ∀ e ∈ allEdges faces, (allEdges faces).count e = 2

/-- The mesh invariant of the spec: valid indices, no degenerate faces,
and closedness. -/
def meshInvariant (n : ℕ) (faces : List Face) : Prop :=
  (∀ f ∈ faces, validFace n f ∧ distinctFace f) ∧ closed faces

/-- Two faces with the same vertex set. -/
def vsetEq (f f' : Face) : Prop :=
  (∀ x ∈ vset f, x ∈ vset f') ∧ (∀ x ∈ vset f', x ∈ vset f)

/-- Separation: no two faces at distinct positions have the same vertex
set.  For triangles with three distinct corners this says two faces share
at most two vertices, hence at most one edge. -/
def sep (faces : List Face) : Prop := faces.Pairwise fun f f' => ¬ vsetEq f f'

/-- The induction-strength invariant: the spec invariant plus separation. -/
def meshOK (n : ℕ) (faces : List Face) : Prop := meshInvariant n faces ∧ sep faces

/-- The four child faces of a parent, given the edge-split index map `m`:
`(c_a, a, a_b), (a_b, b, b_c), (b_c, c, c_a), (a_b, b_c, c_a)`. -/
def childFaces (m : ℕ → ℕ → ℕ) (f : Face) : List Face :=
  [(m f.2.2 f.1, f.1, m f.1 f.2.1), (m f.1 f.2.1, f.2.1, m f.2.1 f.2.2),
    (m f.2.1 f.2.2, f.2.2, m f.2.2 f.1), (m f.1 f.2.1, m f.2.1 f.2.2, m f.2.2 f.1)]

/-- One whole pass on the face list, combinatorially. -/
def subdivided (m : ℕ → ℕ → ℕ) (faces : List Face) : List Face :=
  faces.flatMap (childFaces m)

/-- The geometric-midpoint formula of the spec's scenario: unit midpoint
direction scaled by the average of the parents' magnitudes. -/
noncomputable def midpoint_avg (v1 v2 : Vec3) : Vec3 :=
  vmul (vdiv (scale 0.5 (v1 + v2)) (vnorm (scale 0.5 (v1 + v2))))
    (0.5 * (vnorm v1 + vnorm v2))

/-- Every vertex of the list lies on the unit sphere. -/
def unitVerts (vs : List Vec3) : Prop := ∀ v ∈ vs, vnorm v = 1

/-- Every face has pairwise non-negative dot products between the
positions of its corners (no face spans more than a quarter arc). -/
def faceDots (vs : List Vec3) (faces : List Face) : Prop :=
  ∀ f ∈ faces, ∀ x ∈ vset f, ∀ y ∈ vset f, 0 ≤ dot (vs.getD x vzero) (vs.getD y vzero)

/-- Geometric invariant of the zero-offset planet run: faces are valid,
all vertices lie on the unit sphere, and face corners never exceed a
quarter arc apart. -/
def planetInv (vs : List Vec3) (faces : List Face) : Prop :=
  (∀ f ∈ faces, validFace vs.length f) ∧ unitVerts vs ∧ faceDots vs faces

/-- A colorscale whose elevations are sorted ascending. -/
def sortedAscending (cs : List (ℝ × String)) : Prop := cs.Chain' fun p q => p.1 ≤ q.1

/-- Invariant tying the growing vertex list and the `splits` dictionary of
one refinement pass to the pass's input vertex list `vs0`. -/
structure PassInv (interp : Interp σ) (vs0 vs : List Vec3) (sp : Splits) : Prop where
  grows : ∃ t, vs = vs0 ++ t
  len : vs.length = vs0.length + sp.length
  keysNodup : (sp.map Prod.fst).Nodup
  valsNodup : (sp.map Prod.snd).Nodup
  bounds : ∀ p ∈ sp, vs0.length ≤ p.2 ∧ p.2 < vs.length
  surj : ∀ i, vs0.length ≤ i → i < vs.length → ∃ k, (k, i) ∈ sp
  vals : ∀ p ∈ sp, p.1.1 < vs0.length → p.1.2 < vs0.length →
    ∃ g0 : σ, vs.getD p.2 vzero = (interp (vs0.getD p.1.1 vzero) (vs0.getD p.1.2 vzero) g0).1

/-! ### Basic facts about `canon`, `vset`, `edgesOf` and `slookup` -/

theorem canon_comm (a b : ℕ) : canon a b = canon b a := by
  simp only [canon]; split_ifs <;> simp only [Prod.mk.injEq] <;> omega

theorem canon_eq_min_max (a b : ℕ) : canon a b = (min a b, max a b) := by
  simp only [canon]; split_ifs <;> simp only [Prod.mk.injEq] <;> omega

theorem canon_eq_canon_iff {a b c d : ℕ} :
    canon a b = canon c d ↔ (a = c ∧ b = d) ∨ (a = d ∧ b = c) := by
  simp only [canon]; split_ifs <;> simp only [Prod.mk.injEq] <;> omega

theorem canon_fst_lt_snd {a b : ℕ} (h : a ≠ b) : (canon a b).1 < (canon a b).2 := by
  simp only [canon]; split_ifs <;> simp only [] <;> omega

theorem mem_vset_iff {x : ℕ} {f : Face} : x ∈ vset f ↔ x = f.1 ∨ x = f.2.1 ∨ x = f.2.2 := by
  simp [vset]

theorem mem_edgesOf_iff {e : ℕ × ℕ} {f : Face} :
    e ∈ edgesOf f ↔ e = canon f.1 f.2.1 ∨ e = canon f.2.1 f.2.2 ∨ e = canon f.2.2 f.1 := by
  simp [edgesOf]

theorem edge_endpoints_mem {e : ℕ × ℕ} {f : Face} (h : e ∈ edgesOf f) :
    e.1 ∈ vset f ∧ e.2 ∈ vset f := by
  rcases mem_edgesOf_iff.1 h with h' | h' | h' <;> subst h' <;>
    rw [canon_eq_min_max] <;>
    constructor <;> simp only [mem_vset_iff] <;> omega

theorem allEdges_cons (f : Face) (fs : List Face) :
    allEdges (f :: fs) = edgesOf f ++ allEdges fs := by
  simp [allEdges]

theorem mem_allEdges_of_mem {e : ℕ × ℕ} {f : Face} {faces : List Face}
    (hf : f ∈ faces) (he : e ∈ edgesOf f) : e ∈ allEdges faces :=
  List.mem_flatMap.2 ⟨f, hf, he⟩

theorem slookup_mem {sp : Splits} {k : ℕ × ℕ} {i : ℕ} (h : slookup sp k = some i) :
    (k, i) ∈ sp := by
  induction sp with
  | nil => simp [slookup] at h
  | cons p rest ih =>
      obtain ⟨kk, vv⟩ := p
      rw [slookup] at h
      split_ifs at h with hk
      · cases h; exact hk ▸ List.mem_cons_self _ _
      · exact List.mem_cons_of_mem _ (ih h)

theorem slookup_isSome_iff {sp : Splits} {k : ℕ × ℕ} :
    (slookup sp k).isSome ↔ k ∈ sp.map Prod.fst := by
  induction sp with
  | nil => simp [slookup]
  | cons p rest ih =>
      obtain ⟨kk, vv⟩ := p
      rw [slookup]
      split_ifs with hk
      · simp [hk]
      · simpa [hk] using ih

theorem slookup_cons_of_ne {sp : Splits} {k k' : ℕ × ℕ} {v : ℕ} (h : k ≠ k') :
    slookup ((k', v) :: sp) k = slookup sp k := by
  rw [slookup, if_neg h]

theorem slookup_inj {sp : Splits} {k1 k2 : ℕ × ℕ} {i : ℕ}
    (hk : (sp.map Prod.fst).Nodup) (hv : (sp.map Prod.snd).Nodup)
    (h1 : slookup sp k1 = some i) (h2 : slookup sp k2 = some i) : k1 = k2 := by
  have m1 := slookup_mem h1
  have m2 := slookup_mem h2
  have := List.inj_on_of_nodup_map hv m1 m2 rfl
  exact congrArg Prod.fst this

/-! ### The `split_vertex` specification -/

theorem split_vertex_hit {interp : Interp σ} {a b : ℕ} {vs : List Vec3} {sp : Splits}
    {g : σ} {i : ℕ} (hl : slookup sp (canon a b) = some i) :
    split_vertex interp a b vs sp g = ⟨i, vs, sp, g⟩ := by
  simp [split_vertex, hl]

theorem split_vertex_miss {interp : Interp σ} {a b : ℕ} {vs : List Vec3} {sp : Splits}
    {g : σ} (hl : slookup sp (canon a b) = none) :
    split_vertex interp a b vs sp g =
      ⟨vs.length,
        vs ++ [(interp (vs.getD (canon a b).1 vzero) (vs.getD (canon a b).2 vzero) g).1],
        ((canon a b), vs.length) :: sp,
        (interp (vs.getD (canon a b).1 vzero) (vs.getD (canon a b).2 vzero) g).2⟩ := by
  simp [split_vertex, hl]

theorem split_vertex_spec (interp : Interp σ) (a b : ℕ) (vs0 vs : List Vec3) (sp : Splits)
    (g : σ) (h : PassInv interp vs0 vs sp) :
    PassInv interp vs0 (split_vertex interp a b vs sp g).verts
        (split_vertex interp a b vs sp g).splits ∧
    (∃ ext, (split_vertex interp a b vs sp g).splits = ext ++ sp) ∧
    (∀ k i, slookup sp k = some i →
      slookup (split_vertex interp a b vs sp g).splits k = some i) ∧
    slookup (split_vertex interp a b vs sp g).splits (canon a b) =
      some (split_vertex interp a b vs sp g).idx ∧
    (∀ k, (slookup (split_vertex interp a b vs sp g).splits k).isSome ↔
      (slookup sp k).isSome ∨ k = canon a b) ∧
    vs.length ≤ (split_vertex interp a b vs sp g).verts.length := by
  rcases hl : slookup sp (canon a b) with _ | i
  · rw [split_vertex_miss hl]
    have hkey : canon a b ∉ sp.map Prod.fst := by
      intro hmem
      have := slookup_isSome_iff.2 hmem
      rw [hl] at this
      simp at this
    obtain ⟨t, ht⟩ := h.grows
    have hlen0 : vs0.length ≤ vs.length := by
      rw [ht]; simp
    refine ⟨?_, ⟨[(canon a b, vs.length)], rfl⟩, ?_, ?_, ?_, ?_⟩
    · refine ⟨⟨t ++ [(interp (vs.getD (canon a b).1 vzero) (vs.getD (canon a b).2 vzero) g).1],
        by rw [ht]; simp⟩, ?_, ?_, ?_, ?_, ?_, ?_⟩
      · simp [h.len]; omega
      · simpa [hkey] using h.keysNodup
      · have : vs.length ∉ sp.map Prod.snd := by
          intro hmem
          rcases List.mem_map.1 hmem with ⟨p, hp, hv⟩
          have := (h.bounds p hp).2
          omega
        simpa [this] using h.valsNodup
      · intro p hp
        rcases List.mem_cons.1 hp with hp | hp
        · subst hp; simp; omega
        · have := h.bounds p hp
          simp
          omega
      · intro i hi1 hi2
        simp at hi2
        by_cases hc : i = vs.length
        · exact ⟨canon a b, by simp [hc]⟩
        · obtain ⟨k, hk⟩ := h.surj i hi1 (by omega)
          exact ⟨k, List.mem_cons_of_mem _ hk⟩
      · intro p hp h1 h2
        rcases List.mem_cons.1 hp with hp | hp
        · subst hp
          refine ⟨g, ?_⟩
          have hvd : ∀ j, j < vs0.length →
              vs.getD j vzero = vs0.getD j vzero := by
            intro j hj
            rw [ht]
            simp [List.getD_eq_getElem?_getD, List.getElem?_append_left hj]
          have hnth : (vs ++ [(interp (vs.getD (canon a b).1 vzero)
              (vs.getD (canon a b).2 vzero) g).1]).getD vs.length vzero =
              (interp (vs.getD (canon a b).1 vzero) (vs.getD (canon a b).2 vzero) g).1 := by
            simp [List.getD_eq_getElem?_getD]
          dsimp only at h1 h2 ⊢
          rw [hnth, hvd _ h1, hvd _ h2]
        · have hb := h.bounds p hp
          obtain ⟨g0, hg0⟩ := h.vals p hp h1 h2
          refine ⟨g0, ?_⟩
          have e1 : (vs ++ [(interp (vs.getD (canon a b).1 vzero)
              (vs.getD (canon a b).2 vzero) g).1]).getD p.2 vzero = vs.getD p.2 vzero := by
            simp [List.getD_eq_getElem?_getD, List.getElem?_append_left hb.2]
          dsimp only
          rw [e1, hg0]
    · intro k i hki
      have : k ≠ canon a b := by
        intro hc; subst hc; rw [hl] at hki; cases hki
      rw [slookup_cons_of_ne this, hki]
    · rw [slookup, if_pos rfl]
    · intro k
      by_cases hc : k = canon a b
      · subst hc
        rw [slookup, if_pos rfl, hl]
        simp
      · rw [slookup_cons_of_ne hc]
        simp [hc]
    · simp
  · rw [split_vertex_hit hl]
    refine ⟨h, ⟨[], rfl⟩, fun k i hki => hki, hl, ?_, le_refl _⟩
    intro k
    constructor
    · intro hk; exact Or.inl hk
    · rintro (hk | rfl)
      · exact hk
      · rw [hl]; simp

/-! ### The `refineAux` master specification -/

theorem refineAux_spec (interp : Interp σ) (vs0 : List Vec3) (fs : List Face) :
    ∀ (vs : List Vec3) (sp : Splits) (g : σ), PassInv interp vs0 vs sp →
    PassInv interp vs0 (refineAux interp fs vs sp g).verts (refineAux interp fs vs sp g).splits ∧
    (∃ ext, (refineAux interp fs vs sp g).splits = ext ++ sp) ∧
    (∀ k i, slookup sp k = some i → slookup (refineAux interp fs vs sp g).splits k = some i) ∧
    (∀ k, (slookup (refineAux interp fs vs sp g).splits k).isSome ↔
      (slookup sp k).isSome ∨ k ∈ allEdges fs) ∧
    (refineAux interp fs vs sp g).faces =
      subdivided (fun x y => (slookup (refineAux interp fs vs sp g).splits (canon x y)).getD 0)
        fs ∧
    vs.length ≤ (refineAux interp fs vs sp g).verts.length := by
  induction fs with
  | nil =>
      intro vs sp g h
      exact ⟨h, ⟨[], rfl⟩, fun k i hk => hk, fun k => by simp [refineAux, allEdges],
        rfl, le_refl _⟩
  | cons f fs ih =>
      obtain ⟨a, b, c⟩ := f
      intro vs sp g h
      set r1 := split_vertex interp a b vs sp g with hr1
      set r2 := split_vertex interp b c r1.verts r1.splits r1.rng with hr2
      set r3 := split_vertex interp c a r2.verts r2.splits r2.rng with hr3
      set rest := refineAux interp fs r3.verts r3.splits r3.rng with hrest
      have heq : refineAux interp ((a, b, c) :: fs) vs sp g =
          ⟨rest.verts, rest.splits, rest.rng,
            (r3.idx, a, r1.idx) :: (r1.idx, b, r2.idx) :: (r2.idx, c, r3.idx) ::
              (r1.idx, r2.idx, r3.idx) :: rest.faces⟩ := rfl
      rw [heq]
      obtain ⟨h1inv, ⟨e1, he1⟩, h1stab, h1look, h1some, h1len⟩ :=
        split_vertex_spec interp a b vs0 vs sp g h
      obtain ⟨h2inv, ⟨e2, he2⟩, h2stab, h2look, h2some, h2len⟩ :=
        split_vertex_spec interp b c vs0 r1.verts r1.splits r1.rng h1inv
      obtain ⟨h3inv, ⟨e3, he3⟩, h3stab, h3look, h3some, h3len⟩ :=
        split_vertex_spec interp c a vs0 r2.verts r2.splits r2.rng h2inv
      obtain ⟨hrinv, ⟨er, her⟩, hrstab, hrsome, hrfaces, hrlen⟩ :=
        ih r3.verts r3.splits r3.rng h3inv
      have l1 : slookup rest.splits (canon a b) = some r1.idx :=
        hrstab _ _ (h3stab _ _ (h2stab _ _ h1look))
      have l2 : slookup rest.splits (canon b c) = some r2.idx :=
        hrstab _ _ (h3stab _ _ h2look)
      have l3 : slookup rest.splits (canon c a) = some r3.idx := hrstab _ _ h3look
      refine ⟨hrinv, ?_, ?_, ?_, ?_, ?_⟩
      · refine ⟨er ++ (e3 ++ (e2 ++ e1)), ?_⟩
        rw [her, he3, he2, he1]
        simp [List.append_assoc]
      · intro k i hk
        exact hrstab _ _ (h3stab _ _ (h2stab _ _ (h1stab _ _ hk)))
      · intro k
        rw [hrsome, h3some, h2some, h1some, allEdges_cons]
        simp only [List.mem_append, mem_edgesOf_iff]
        tauto
      · show _ = subdivided _ ((a, b, c) :: fs)
        rw [subdivided, List.flatMap_cons]
        have hhead : childFaces
            (fun x y => (slookup rest.splits (canon x y)).getD 0) (a, b, c) =
            [(r3.idx, a, r1.idx), (r1.idx, b, r2.idx), (r2.idx, c, r3.idx),
              (r1.idx, r2.idx, r3.idx)] := by
          simp only [childFaces]
          rw [l1, l2, l3]
          rfl
        rw [hhead]
        have htail : rest.faces = fs.flatMap
            (childFaces fun x y => (slookup rest.splits (canon x y)).getD 0) := hrfaces
        rw [← htail]
        rfl
      · exact le_trans h1len (le_trans h2len (le_trans h3len hrlen))

/-! ### Combinatorial facts about faces, edges and subdivision -/

theorem canon_of_le {a b : ℕ} (h : a ≤ b) : canon a b = (a, b) := by
  simp only [canon]; split_ifs <;> simp only [Prod.mk.injEq] <;> omega

theorem mem_allEdges_le {e : ℕ × ℕ} {faces : List Face} (h : e ∈ allEdges faces) :
    e.1 ≤ e.2 := by
  rcases List.mem_flatMap.1 h with ⟨f, _, he⟩
  rcases mem_edgesOf_iff.1 he with h' | h' | h' <;> subst h' <;>
    rw [canon_eq_min_max] <;> simp

theorem canon_of_mem_allEdges {e : ℕ × ℕ} {faces : List Face} (h : e ∈ allEdges faces) :
    canon e.1 e.2 = e := by
  have := mem_allEdges_le h
  rw [canon_of_le this]

theorem edge_lt_of_valid {e : ℕ × ℕ} {f : Face} {n : ℕ} (he : e ∈ edgesOf f)
    (hv : validFace n f) : e.1 < n ∧ e.2 < n := by
  obtain ⟨h1, h2⟩ := edge_endpoints_mem he
  obtain ⟨v1, v2, v3⟩ := hv
  constructor
  · rcases mem_vset_iff.1 h1 with h | h | h <;> omega
  · rcases mem_vset_iff.1 h2 with h | h | h <;> omega

theorem allEdges_lt {e : ℕ × ℕ} {faces : List Face} {n : ℕ}
    (hv : ∀ f ∈ faces, validFace n f) (he : e ∈ allEdges faces) : e.1 < n ∧ e.2 < n := by
  rcases List.mem_flatMap.1 he with ⟨f, hf, hef⟩
  exact edge_lt_of_valid hef (hv f hf)

theorem edge_fst_lt_snd {e : ℕ × ℕ} {f : Face} (he : e ∈ edgesOf f)
    (hd : distinctFace f) : e.1 < e.2 := by
  obtain ⟨d1, d2, d3⟩ := hd
  rcases mem_edgesOf_iff.1 he with h' | h' | h' <;> subst h' <;>
    rw [canon_eq_min_max] <;> simp <;> omega

theorem edges_ne {f : Face} (hd : distinctFace f) :
    canon f.1 f.2.1 ≠ canon f.2.1 f.2.2 ∧ canon f.2.1 f.2.2 ≠ canon f.2.2 f.1 ∧
      canon f.1 f.2.1 ≠ canon f.2.2 f.1 := by
  obtain ⟨d1, d2, d3⟩ := hd
  refine ⟨?_, ?_, ?_⟩ <;>
    (rw [canon_eq_min_max, canon_eq_min_max]; intro h; injection h with h1 h2; omega)

theorem edgesOf_nodup {f : Face} (hd : distinctFace f) : (edgesOf f).Nodup := by
  obtain ⟨h1, h2, h3⟩ := edges_ne hd
  simp [edgesOf, h1, h3, h2]

/-- Two distinct edges of a triangle cover all three of its vertices. -/
theorem two_edges_cover {f : Face} {e1 e2 : ℕ × ℕ} (hd : distinctFace f)
    (h1 : e1 ∈ edgesOf f) (h2 : e2 ∈ edgesOf f) (hne : e1 ≠ e2) :
    ∀ x ∈ vset f, x = e1.1 ∨ x = e1.2 ∨ x = e2.1 ∨ x = e2.2 := by
  obtain ⟨d1, d2, d3⟩ := hd
  intro x hx
  rcases mem_vset_iff.1 hx with hx | hx | hx <;>
  rcases mem_edgesOf_iff.1 h1 with g1 | g1 | g1 <;>
  rcases mem_edgesOf_iff.1 h2 with g2 | g2 | g2 <;>
    subst g1 <;> subst g2 <;> subst hx <;>
    first
      | (exact absurd rfl hne)
      | (rw [canon_eq_min_max, canon_eq_min_max]; simp <;> omega)

/-- Two faces sharing two distinct edges have the same vertex set. -/
theorem vsetEq_of_shared_edges {f f' : Face} {e1 e2 : ℕ × ℕ}
    (hdf : distinctFace f) (hdf' : distinctFace f') (hne : e1 ≠ e2)
    (h1 : e1 ∈ edgesOf f) (h2 : e2 ∈ edgesOf f)
    (h1' : e1 ∈ edgesOf f') (h2' : e2 ∈ edgesOf f') : vsetEq f f' := by
  constructor
  · intro x hx
    rcases two_edges_cover hdf h1 h2 hne x hx with h | h | h | h <;> subst h
    · exact (edge_endpoints_mem h1').1
    · exact (edge_endpoints_mem h1').2
    · exact (edge_endpoints_mem h2').1
    · exact (edge_endpoints_mem h2').2
  · intro x hx
    rcases two_edges_cover hdf' h1' h2' hne x hx with h | h | h | h <;> subst h
    · exact (edge_endpoints_mem h1).1
    · exact (edge_endpoints_mem h1).2
    · exact (edge_endpoints_mem h2).1
    · exact (edge_endpoints_mem h2).2

/-! ### Edge-count computations for the twelve child edges of one face -/

set_option maxHeartbeats 1000000 in
theorem count12_half (a b c x p q mu mab mbc mca n : ℕ)
    (ha : a < n) (hb : b < n) (hc : c < n) (hp : p < n) (hq : q < n)
    (hab : a ≠ b) (hbc : b ≠ c) (hca : a ≠ c)
    (f1 : n ≤ mab) (f2 : n ≤ mbc) (f3 : n ≤ mca) (fm : n ≤ mu)
    (Eab : mab = mu ↔ (min a b = p ∧ max a b = q))
    (Ebc : mbc = mu ↔ (min b c = p ∧ max b c = q))
    (Eca : mca = mu ↔ (min c a = p ∧ max c a = q))
    (hpq : p < q) (hx : x = p ∨ x = q) :
    ([(min mca a, max mca a), (min a mab, max a mab), (min mab mca, max mab mca),
      (min mab b, max mab b), (min b mbc, max b mbc), (min mbc mab, max mbc mab),
      (min mbc c, max mbc c), (min c mca, max c mca), (min mca mbc, max mca mbc),
      (min mab mbc, max mab mbc), (min mbc mca, max mbc mca),
      (min mca mab, max mca mab)] : List (ℕ × ℕ)).count (x, mu) =
    ([(min a b, max a b), (min b c, max b c), (min c a, max c a)] :
      List (ℕ × ℕ)).count (p, q) := by
  by_cases E1 : min a b = p ∧ max a b = q
  · have gab : mab = mu := Eab.mpr E1
    have gbc : mbc ≠ mu := by intro h; have := Ebc.mp h; omega
    have gca : mca ≠ mu := by intro h; have := Eca.mp h; omega
    have hx2 : x = a ∨ x = b := by omega
    rcases hx2 with hxa | hxb
    · simp only [List.count_cons, List.count_nil, beq_iff_eq, Prod.mk.injEq]
      rw [if_neg (by omega : ¬(min mca a = x ∧ max mca a = mu)),
        if_pos (by omega : (min a mab = x ∧ max a mab = mu)),
        if_neg (by omega : ¬(min mab mca = x ∧ max mab mca = mu)),
        if_neg (by omega : ¬(min mab b = x ∧ max mab b = mu)),
        if_neg (by omega : ¬(min b mbc = x ∧ max b mbc = mu)),
        if_neg (by omega : ¬(min mbc mab = x ∧ max mbc mab = mu)),
        if_neg (by omega : ¬(min mbc c = x ∧ max mbc c = mu)),
        if_neg (by omega : ¬(min c mca = x ∧ max c mca = mu)),
        if_neg (by omega : ¬(min mca mbc = x ∧ max mca mbc = mu)),
        if_neg (by omega : ¬(min mab mbc = x ∧ max mab mbc = mu)),
        if_neg (by omega : ¬(min mbc mca = x ∧ max mbc mca = mu)),
        if_neg (by omega : ¬(min mca mab = x ∧ max mca mab = mu)),
        if_pos (by omega : (min a b = p ∧ max a b = q)),
        if_neg (by omega : ¬(min b c = p ∧ max b c = q)),
        if_neg (by omega : ¬(min c a = p ∧ max c a = q))]
    · simp only [List.count_cons, List.count_nil, beq_iff_eq, Prod.mk.injEq]
      rw [if_neg (by omega : ¬(min mca a = x ∧ max mca a = mu)),
        if_neg (by omega : ¬(min a mab = x ∧ max a mab = mu)),
        if_neg (by omega : ¬(min mab mca = x ∧ max mab mca = mu)),
        if_pos (by omega : (min mab b = x ∧ max mab b = mu)),
        if_neg (by omega : ¬(min b mbc = x ∧ max b mbc = mu)),
        if_neg (by omega : ¬(min mbc mab = x ∧ max mbc mab = mu)),
        if_neg (by omega : ¬(min mbc c = x ∧ max mbc c = mu)),
        if_neg (by omega : ¬(min c mca = x ∧ max c mca = mu)),
        if_neg (by omega : ¬(min mca mbc = x ∧ max mca mbc = mu)),
        if_neg (by omega : ¬(min mab mbc = x ∧ max mab mbc = mu)),
        if_neg (by omega : ¬(min mbc mca = x ∧ max mbc mca = mu)),
        if_neg (by omega : ¬(min mca mab = x ∧ max mca mab = mu)),
        if_pos (by omega : (min a b = p ∧ max a b = q)),
        if_neg (by omega : ¬(min b c = p ∧ max b c = q)),
        if_neg (by omega : ¬(min c a = p ∧ max c a = q))]
  · by_cases E2 : min b c = p ∧ max b c = q
    · have gbc : mbc = mu := Ebc.mpr E2
      have gab : mab ≠ mu := by intro h; exact E1 (Eab.mp h)
      have gca : mca ≠ mu := by intro h; have := Eca.mp h; omega
      have hx2 : x = b ∨ x = c := by omega
      rcases hx2 with hxb | hxc
      · simp only [List.count_cons, List.count_nil, beq_iff_eq, Prod.mk.injEq]
        rw [if_neg (by omega : ¬(min mca a = x ∧ max mca a = mu)),
          if_neg (by omega : ¬(min a mab = x ∧ max a mab = mu)),
          if_neg (by omega : ¬(min mab mca = x ∧ max mab mca = mu)),
          if_neg (by omega : ¬(min mab b = x ∧ max mab b = mu)),
          if_pos (by omega : (min b mbc = x ∧ max b mbc = mu)),
          if_neg (by omega : ¬(min mbc mab = x ∧ max mbc mab = mu)),
          if_neg (by omega : ¬(min mbc c = x ∧ max mbc c = mu)),
          if_neg (by omega : ¬(min c mca = x ∧ max c mca = mu)),
          if_neg (by omega : ¬(min mca mbc = x ∧ max mca mbc = mu)),
          if_neg (by omega : ¬(min mab mbc = x ∧ max mab mbc = mu)),
          if_neg (by omega : ¬(min mbc mca = x ∧ max mbc mca = mu)),
          if_neg (by omega : ¬(min mca mab = x ∧ max mca mab = mu)),
          if_neg (by omega : ¬(min a b = p ∧ max a b = q)),
          if_pos (by omega : (min b c = p ∧ max b c = q)),
          if_neg (by omega : ¬(min c a = p ∧ max c a = q))]
      · simp only [List.count_cons, List.count_nil, beq_iff_eq, Prod.mk.injEq]
        rw [if_neg (by omega : ¬(min mca a = x ∧ max mca a = mu)),
          if_neg (by omega : ¬(min a mab = x ∧ max a mab = mu)),
          if_neg (by omega : ¬(min mab mca = x ∧ max mab mca = mu)),
          if_neg (by omega : ¬(min mab b = x ∧ max mab b = mu)),
          if_neg (by omega : ¬(min b mbc = x ∧ max b mbc = mu)),
          if_neg (by omega : ¬(min mbc mab = x ∧ max mbc mab = mu)),
          if_pos (by omega : (min mbc c = x ∧ max mbc c = mu)),
          if_neg (by omega : ¬(min c mca = x ∧ max c mca = mu)),
          if_neg (by omega : ¬(min mca mbc = x ∧ max mca mbc = mu)),
          if_neg (by omega : ¬(min mab mbc = x ∧ max mab mbc = mu)),
          if_neg (by omega : ¬(min mbc mca = x ∧ max mbc mca = mu)),
          if_neg (by omega : ¬(min mca mab = x ∧ max mca mab = mu)),
          if_neg (by omega : ¬(min a b = p ∧ max a b = q)),
          if_pos (by omega : (min b c = p ∧ max b c = q)),
          if_neg (by omega : ¬(min c a = p ∧ max c a = q))]
    · by_cases E3 : min c a = p ∧ max c a = q
      · have gca : mca = mu := Eca.mpr E3
        have gab : mab ≠ mu := by intro h; exact E1 (Eab.mp h)
        have gbc : mbc ≠ mu := by intro h; exact E2 (Ebc.mp h)
        have hx2 : x = c ∨ x = a := by omega
        rcases hx2 with hxc | hxa
        · simp only [List.count_cons, List.count_nil, beq_iff_eq, Prod.mk.injEq]
          rw [if_neg (by omega : ¬(min mca a = x ∧ max mca a = mu)),
            if_neg (by omega : ¬(min a mab = x ∧ max a mab = mu)),
            if_neg (by omega : ¬(min mab mca = x ∧ max mab mca = mu)),
            if_neg (by omega : ¬(min mab b = x ∧ max mab b = mu)),
            if_neg (by omega : ¬(min b mbc = x ∧ max b mbc = mu)),
            if_neg (by omega : ¬(min mbc mab = x ∧ max mbc mab = mu)),
            if_neg (by omega : ¬(min mbc c = x ∧ max mbc c = mu)),
            if_pos (by omega : (min c mca = x ∧ max c mca = mu)),
            if_neg (by omega : ¬(min mca mbc = x ∧ max mca mbc = mu)),
            if_neg (by omega : ¬(min mab mbc = x ∧ max mab mbc = mu)),
            if_neg (by omega : ¬(min mbc mca = x ∧ max mbc mca = mu)),
            if_neg (by omega : ¬(min mca mab = x ∧ max mca mab = mu)),
            if_neg (by omega : ¬(min a b = p ∧ max a b = q)),
            if_neg (by omega : ¬(min b c = p ∧ max b c = q)),
            if_pos (by omega : (min c a = p ∧ max c a = q))]
        · simp only [List.count_cons, List.count_nil, beq_iff_eq, Prod.mk.injEq]
          rw [if_pos (by omega : (min mca a = x ∧ max mca a = mu)),
            if_neg (by omega : ¬(min a mab = x ∧ max a mab = mu)),
            if_neg (by omega : ¬(min mab mca = x ∧ max mab mca = mu)),
            if_neg (by omega : ¬(min mab b = x ∧ max mab b = mu)),
            if_neg (by omega : ¬(min b mbc = x ∧ max b mbc = mu)),
            if_neg (by omega : ¬(min mbc mab = x ∧ max mbc mab = mu)),
            if_neg (by omega : ¬(min mbc c = x ∧ max mbc c = mu)),
            if_neg (by omega : ¬(min c mca = x ∧ max c mca = mu)),
            if_neg (by omega : ¬(min mca mbc = x ∧ max mca mbc = mu)),
            if_neg (by omega : ¬(min mab mbc = x ∧ max mab mbc = mu)),
            if_neg (by omega : ¬(min mbc mca = x ∧ max mbc mca = mu)),
            if_neg (by omega : ¬(min mca mab = x ∧ max mca mab = mu)),
            if_neg (by omega : ¬(min a b = p ∧ max a b = q)),
            if_neg (by omega : ¬(min b c = p ∧ max b c = q)),
            if_pos (by omega : (min c a = p ∧ max c a = q))]
      · have gab : mab ≠ mu := by intro h; exact E1 (Eab.mp h)
        have gbc : mbc ≠ mu := by intro h; exact E2 (Ebc.mp h)
        have gca : mca ≠ mu := by intro h; exact E3 (Eca.mp h)
        simp only [List.count_cons, List.count_nil, beq_iff_eq, Prod.mk.injEq]
        rw [if_neg (by omega : ¬(min mca a = x ∧ max mca a = mu)),
          if_neg (by omega : ¬(min a mab = x ∧ max a mab = mu)),
          if_neg (by omega : ¬(min mab mca = x ∧ max mab mca = mu)),
          if_neg (by omega : ¬(min mab b = x ∧ max mab b = mu)),
          if_neg (by omega : ¬(min b mbc = x ∧ max b mbc = mu)),
          if_neg (by omega : ¬(min mbc mab = x ∧ max mbc mab = mu)),
          if_neg (by omega : ¬(min mbc c = x ∧ max mbc c = mu)),
          if_neg (by omega : ¬(min c mca = x ∧ max c mca = mu)),
          if_neg (by omega : ¬(min mca mbc = x ∧ max mca mbc = mu)),
          if_neg (by omega : ¬(min mab mbc = x ∧ max mab mbc = mu)),
          if_neg (by omega : ¬(min mbc mca = x ∧ max mbc mca = mu)),
          if_neg (by omega : ¬(min mca mab = x ∧ max mca mab = mu)),
          if_neg (by omega : ¬(min a b = p ∧ max a b = q)),
          if_neg (by omega : ¬(min b c = p ∧ max b c = q)),
          if_neg (by omega : ¬(min c a = p ∧ max c a = q))]

set_option maxHeartbeats 1000000 in
theorem count12_inner_two (a b c mu1 mu2 mab mbc mca n : ℕ)
    (ha : a < n) (hb : b < n) (hc : c < n)
    (f1 : n ≤ mab) (f2 : n ≤ mbc) (f3 : n ≤ mca)
    (d1 : mab ≠ mbc) (d2 : mbc ≠ mca) (d3 : mab ≠ mca)
    (h12 : mu1 ≠ mu2)
    (hm1 : mu1 = mab ∨ mu1 = mbc ∨ mu1 = mca)
    (hm2 : mu2 = mab ∨ mu2 = mbc ∨ mu2 = mca) :
    ([(min mca a, max mca a), (min a mab, max a mab), (min mab mca, max mab mca),
      (min mab b, max mab b), (min b mbc, max b mbc), (min mbc mab, max mbc mab),
      (min mbc c, max mbc c), (min c mca, max c mca), (min mca mbc, max mca mbc),
      (min mab mbc, max mab mbc), (min mbc mca, max mbc mca),
      (min mca mab, max mca mab)] : List (ℕ × ℕ)).count (min mu1 mu2, max mu1 mu2) = 2 := by
  rcases hm1 with g1 | g1 | g1 <;> rcases hm2 with g2 | g2 | g2
  · exact (h12 (by omega)).elim
  · simp only [List.count_cons, List.count_nil, beq_iff_eq, Prod.mk.injEq]
    rw [if_neg (by omega : ¬(min mca a = min mu1 mu2 ∧ max mca a = max mu1 mu2)),
      if_neg (by omega : ¬(min a mab = min mu1 mu2 ∧ max a mab = max mu1 mu2)),
      if_neg (by omega : ¬(min mab mca = min mu1 mu2 ∧ max mab mca = max mu1 mu2)),
      if_neg (by omega : ¬(min mab b = min mu1 mu2 ∧ max mab b = max mu1 mu2)),
      if_neg (by omega : ¬(min b mbc = min mu1 mu2 ∧ max b mbc = max mu1 mu2)),
      if_pos (by omega : (min mbc mab = min mu1 mu2 ∧ max mbc mab = max mu1 mu2)),
      if_neg (by omega : ¬(min mbc c = min mu1 mu2 ∧ max mbc c = max mu1 mu2)),
      if_neg (by omega : ¬(min c mca = min mu1 mu2 ∧ max c mca = max mu1 mu2)),
      if_neg (by omega : ¬(min mca mbc = min mu1 mu2 ∧ max mca mbc = max mu1 mu2)),
      if_pos (by omega : (min mab mbc = min mu1 mu2 ∧ max mab mbc = max mu1 mu2)),
      if_neg (by omega : ¬(min mbc mca = min mu1 mu2 ∧ max mbc mca = max mu1 mu2)),
      if_neg (by omega : ¬(min mca mab = min mu1 mu2 ∧ max mca mab = max mu1 mu2))]
  · simp only [List.count_cons, List.count_nil, beq_iff_eq, Prod.mk.injEq]
    rw [if_neg (by omega : ¬(min mca a = min mu1 mu2 ∧ max mca a = max mu1 mu2)),
      if_neg (by omega : ¬(min a mab = min mu1 mu2 ∧ max a mab = max mu1 mu2)),
      if_pos (by omega : (min mab mca = min mu1 mu2 ∧ max mab mca = max mu1 mu2)),
      if_neg (by omega : ¬(min mab b = min mu1 mu2 ∧ max mab b = max mu1 mu2)),
      if_neg (by omega : ¬(min b mbc = min mu1 mu2 ∧ max b mbc = max mu1 mu2)),
      if_neg (by omega : ¬(min mbc mab = min mu1 mu2 ∧ max mbc mab = max mu1 mu2)),
      if_neg (by omega : ¬(min mbc c = min mu1 mu2 ∧ max mbc c = max mu1 mu2)),
      if_neg (by omega : ¬(min c mca = min mu1 mu2 ∧ max c mca = max mu1 mu2)),
      if_neg (by omega : ¬(min mca mbc = min mu1 mu2 ∧ max mca mbc = max mu1 mu2)),
      if_neg (by omega : ¬(min mab mbc = min mu1 mu2 ∧ max mab mbc = max mu1 mu2)),
      if_neg (by omega : ¬(min mbc mca = min mu1 mu2 ∧ max mbc mca = max mu1 mu2)),
      if_pos (by omega : (min mca mab = min mu1 mu2 ∧ max mca mab = max mu1 mu2))]
  · simp only [List.count_cons, List.count_nil, beq_iff_eq, Prod.mk.injEq]
    rw [if_neg (by omega : ¬(min mca a = min mu1 mu2 ∧ max mca a = max mu1 mu2)),
      if_neg (by omega : ¬(min a mab = min mu1 mu2 ∧ max a mab = max mu1 mu2)),
      if_neg (by omega : ¬(min mab mca = min mu1 mu2 ∧ max mab mca = max mu1 mu2)),
      if_neg (by omega : ¬(min mab b = min mu1 mu2 ∧ max mab b = max mu1 mu2)),
      if_neg (by omega : ¬(min b mbc = min mu1 mu2 ∧ max b mbc = max mu1 mu2)),
      if_pos (by omega : (min mbc mab = min mu1 mu2 ∧ max mbc mab = max mu1 mu2)),
      if_neg (by omega : ¬(min mbc c = min mu1 mu2 ∧ max mbc c = max mu1 mu2)),
      if_neg (by omega : ¬(min c mca = min mu1 mu2 ∧ max c mca = max mu1 mu2)),
      if_neg (by omega : ¬(min mca mbc = min mu1 mu2 ∧ max mca mbc = max mu1 mu2)),
      if_pos (by omega : (min mab mbc = min mu1 mu2 ∧ max mab mbc = max mu1 mu2)),
      if_neg (by omega : ¬(min mbc mca = min mu1 mu2 ∧ max mbc mca = max mu1 mu2)),
      if_neg (by omega : ¬(min mca mab = min mu1 mu2 ∧ max mca mab = max mu1 mu2))]
  · exact (h12 (by omega)).elim
  · simp only [List.count_cons, List.count_nil, beq_iff_eq, Prod.mk.injEq]
    rw [if_neg (by omega : ¬(min mca a = min mu1 mu2 ∧ max mca a = max mu1 mu2)),
      if_neg (by omega : ¬(min a mab = min mu1 mu2 ∧ max a mab = max mu1 mu2)),
      if_neg (by omega : ¬(min mab mca = min mu1 mu2 ∧ max mab mca = max mu1 mu2)),
      if_neg (by omega : ¬(min mab b = min mu1 mu2 ∧ max mab b = max mu1 mu2)),
      if_neg (by omega : ¬(min b mbc = min mu1 mu2 ∧ max b mbc = max mu1 mu2)),
      if_neg (by omega : ¬(min mbc mab = min mu1 mu2 ∧ max mbc mab = max mu1 mu2)),
      if_neg (by omega : ¬(min mbc c = min mu1 mu2 ∧ max mbc c = max mu1 mu2)),
      if_neg (by omega : ¬(min c mca = min mu1 mu2 ∧ max c mca = max mu1 mu2)),
      if_pos (by omega : (min mca mbc = min mu1 mu2 ∧ max mca mbc = max mu1 mu2)),
      if_neg (by omega : ¬(min mab mbc = min mu1 mu2 ∧ max mab mbc = max mu1 mu2)),
      if_pos (by omega : (min mbc mca = min mu1 mu2 ∧ max mbc mca = max mu1 mu2)),
      if_neg (by omega : ¬(min mca mab = min mu1 mu2 ∧ max mca mab = max mu1 mu2))]
  · simp only [List.count_cons, List.count_nil, beq_iff_eq, Prod.mk.injEq]
    rw [if_neg (by omega : ¬(min mca a = min mu1 mu2 ∧ max mca a = max mu1 mu2)),
      if_neg (by omega : ¬(min a mab = min mu1 mu2 ∧ max a mab = max mu1 mu2)),
      if_pos (by omega : (min mab mca = min mu1 mu2 ∧ max mab mca = max mu1 mu2)),
      if_neg (by omega : ¬(min mab b = min mu1 mu2 ∧ max mab b = max mu1 mu2)),
      if_neg (by omega : ¬(min b mbc = min mu1 mu2 ∧ max b mbc = max mu1 mu2)),
      if_neg (by omega : ¬(min mbc mab = min mu1 mu2 ∧ max mbc mab = max mu1 mu2)),
      if_neg (by omega : ¬(min mbc c = min mu1 mu2 ∧ max mbc c = max mu1 mu2)),
      if_neg (by omega : ¬(min c mca = min mu1 mu2 ∧ max c mca = max mu1 mu2)),
      if_neg (by omega : ¬(min mca mbc = min mu1 mu2 ∧ max mca mbc = max mu1 mu2)),
      if_neg (by omega : ¬(min mab mbc = min mu1 mu2 ∧ max mab mbc = max mu1 mu2)),
      if_neg (by omega : ¬(min mbc mca = min mu1 mu2 ∧ max mbc mca = max mu1 mu2)),
      if_pos (by omega : (min mca mab = min mu1 mu2 ∧ max mca mab = max mu1 mu2))]
  · simp only [List.count_cons, List.count_nil, beq_iff_eq, Prod.mk.injEq]
    rw [if_neg (by omega : ¬(min mca a = min mu1 mu2 ∧ max mca a = max mu1 mu2)),
      if_neg (by omega : ¬(min a mab = min mu1 mu2 ∧ max a mab = max mu1 mu2)),
      if_neg (by omega : ¬(min mab mca = min mu1 mu2 ∧ max mab mca = max mu1 mu2)),
      if_neg (by omega : ¬(min mab b = min mu1 mu2 ∧ max mab b = max mu1 mu2)),
      if_neg (by omega : ¬(min b mbc = min mu1 mu2 ∧ max b mbc = max mu1 mu2)),
      if_neg (by omega : ¬(min mbc mab = min mu1 mu2 ∧ max mbc mab = max mu1 mu2)),
      if_neg (by omega : ¬(min mbc c = min mu1 mu2 ∧ max mbc c = max mu1 mu2)),
      if_neg (by omega : ¬(min c mca = min mu1 mu2 ∧ max c mca = max mu1 mu2)),
      if_pos (by omega : (min mca mbc = min mu1 mu2 ∧ max mca mbc = max mu1 mu2)),
      if_neg (by omega : ¬(min mab mbc = min mu1 mu2 ∧ max mab mbc = max mu1 mu2)),
      if_pos (by omega : (min mbc mca = min mu1 mu2 ∧ max mbc mca = max mu1 mu2)),
      if_neg (by omega : ¬(min mca mab = min mu1 mu2 ∧ max mca mab = max mu1 mu2))]
  · exact (h12 (by omega)).elim

set_option maxHeartbeats 1000000 in
theorem count12_inner_zero (a b c mu1 mu2 mab mbc mca n : ℕ)
    (ha : a < n) (hb : b < n) (hc : c < n)
    (f1 : n ≤ mab) (f2 : n ≤ mbc) (f3 : n ≤ mca)
    (fm1 : n ≤ mu1) (fm2 : n ≤ mu2)
    (hnot : ¬((mu1 = mab ∨ mu1 = mbc ∨ mu1 = mca) ∧
      (mu2 = mab ∨ mu2 = mbc ∨ mu2 = mca))) :
    ([(min mca a, max mca a), (min a mab, max a mab), (min mab mca, max mab mca),
      (min mab b, max mab b), (min b mbc, max b mbc), (min mbc mab, max mbc mab),
      (min mbc c, max mbc c), (min c mca, max c mca), (min mca mbc, max mca mbc),
      (min mab mbc, max mab mbc), (min mbc mca, max mbc mca),
      (min mca mab, max mca mab)] : List (ℕ × ℕ)).count (min mu1 mu2, max mu1 mu2) = 0 := by
  simp only [List.count_cons, List.count_nil, beq_iff_eq, Prod.mk.injEq]
  rw [if_neg (by omega : ¬(min mca a = min mu1 mu2 ∧ max mca a = max mu1 mu2)),
    if_neg (by omega : ¬(min a mab = min mu1 mu2 ∧ max a mab = max mu1 mu2)),
    if_neg (by omega : ¬(min mab mca = min mu1 mu2 ∧ max mab mca = max mu1 mu2)),
    if_neg (by omega : ¬(min mab b = min mu1 mu2 ∧ max mab b = max mu1 mu2)),
    if_neg (by omega : ¬(min b mbc = min mu1 mu2 ∧ max b mbc = max mu1 mu2)),
    if_neg (by omega : ¬(min mbc mab = min mu1 mu2 ∧ max mbc mab = max mu1 mu2)),
    if_neg (by omega : ¬(min mbc c = min mu1 mu2 ∧ max mbc c = max mu1 mu2)),
    if_neg (by omega : ¬(min c mca = min mu1 mu2 ∧ max c mca = max mu1 mu2)),
    if_neg (by omega : ¬(min mca mbc = min mu1 mu2 ∧ max mca mbc = max mu1 mu2)),
    if_neg (by omega : ¬(min mab mbc = min mu1 mu2 ∧ max mab mbc = max mu1 mu2)),
    if_neg (by omega : ¬(min mbc mca = min mu1 mu2 ∧ max mbc mca = max mu1 mu2)),
    if_neg (by omega : ¬(min mca mab = min mu1 mu2 ∧ max mca mab = max mu1 mu2))]

/-! ### Assembling the per-face counts into closedness preservation -/

theorem m_minmax {m : ℕ → ℕ → ℕ} (Hsym : ∀ u v, m u v = m v u) (u v : ℕ) :
    m u v = m (min u v) (max u v) := by
  rcases le_total u v with h | h
  · rw [min_eq_left h, max_eq_right h]
  · rw [min_eq_right h, max_eq_left h, Hsym]

theorem allEdges_childFaces (m : ℕ → ℕ → ℕ) (a b c : ℕ) :
    allEdges (childFaces m (a, b, c)) =
      [canon (m c a) a, canon a (m a b), canon (m a b) (m c a),
       canon (m a b) b, canon b (m b c), canon (m b c) (m a b),
       canon (m b c) c, canon c (m c a), canon (m c a) (m b c),
       canon (m a b) (m b c), canon (m b c) (m c a), canon (m c a) (m a b)] := rfl

theorem allEdges_childFaces_minmax (m : ℕ → ℕ → ℕ) (a b c : ℕ) :
    allEdges (childFaces m (a, b, c)) =
      [(min (m c a) a, max (m c a) a), (min a (m a b), max a (m a b)),
       (min (m a b) (m c a), max (m a b) (m c a)),
       (min (m a b) b, max (m a b) b), (min b (m b c), max b (m b c)),
       (min (m b c) (m a b), max (m b c) (m a b)),
       (min (m b c) c, max (m b c) c), (min c (m c a), max c (m c a)),
       (min (m c a) (m b c), max (m c a) (m b c)),
       (min (m a b) (m b c), max (m a b) (m b c)),
       (min (m b c) (m c a), max (m b c) (m c a)),
       (min (m c a) (m a b), max (m c a) (m a b))] := by
  rw [allEdges_childFaces]
  simp only [canon_eq_min_max]

theorem edgesOf_minmax (f : Face) :
    edgesOf f = [(min f.1 f.2.1, max f.1 f.2.1), (min f.2.1 f.2.2, max f.2.1 f.2.2),
      (min f.2.2 f.1, max f.2.2 f.1)] := by
  simp only [edgesOf, canon_eq_min_max]

theorem mem_edgesOf_canon {f : Face} {u v : ℕ} (h : (min u v, max u v) ∈ edgesOf f) :
    canon u v ∈ edgesOf f := by
  rwa [canon_eq_min_max]

/-- Every edge of a child face of `f` is either a half of a parent edge or an
inner edge joining the split vertices of two distinct parent edges. -/
theorem childEdges_shape {nV : ℕ} {m : ℕ → ℕ → ℕ} {faces : List Face} {f : Face}
    (Hsym : ∀ u v, m u v = m v u)
    (Hfr : ∀ e ∈ allEdges faces, nV ≤ m e.1 e.2)
    (hf : f ∈ faces) (hv : validFace nV f) (hd : distinctFace f)
    {e' : ℕ × ℕ} (h : e' ∈ allEdges (childFaces m f)) :
    (∃ p q x, (p, q) ∈ edgesOf f ∧ p < q ∧ (x = p ∨ x = q) ∧ e' = (x, m p q)) ∨
    (∃ p1 q1 p2 q2, (p1, q1) ∈ edgesOf f ∧ (p2, q2) ∈ edgesOf f ∧
      p1 < q1 ∧ p2 < q2 ∧ (p1, q1) ≠ (p2, q2) ∧
      e' = (min (m p1 q1) (m p2 q2), max (m p1 q1) (m p2 q2))) := by
  obtain ⟨a, b, c⟩ := f
  obtain ⟨ha, hb, hc⟩ : a < nV ∧ b < nV ∧ c < nV := hv
  obtain ⟨hab, hbc, hca⟩ : a ≠ b ∧ b ≠ c ∧ a ≠ c := hd
  have eab : canon a b ∈ edgesOf (a, b, c) := by simp [edgesOf]
  have ebc : canon b c ∈ edgesOf (a, b, c) := by simp [edgesOf]
  have eca : canon c a ∈ edgesOf (a, b, c) := by simp [edgesOf]
  have mab : m (min a b) (max a b) = m a b := (m_minmax Hsym a b).symm
  have mbc : m (min b c) (max b c) = m b c := (m_minmax Hsym b c).symm
  have mca : m (min c a) (max c a) = m c a := (m_minmax Hsym c a).symm
  have fab : nV ≤ m a b := by
    have h0 := Hfr _ (mem_allEdges_of_mem hf eab)
    rw [canon_eq_min_max] at h0
    exact mab ▸ h0
  have fbc : nV ≤ m b c := by
    have h0 := Hfr _ (mem_allEdges_of_mem hf ebc)
    rw [canon_eq_min_max] at h0
    exact mbc ▸ h0
  have fca : nV ≤ m c a := by
    have h0 := Hfr _ (mem_allEdges_of_mem hf eca)
    rw [canon_eq_min_max] at h0
    exact mca ▸ h0
  have cab : (min a b, max a b) ∈ edgesOf (a, b, c) := by
    rw [← canon_eq_min_max]; exact eab
  have cbc : (min b c, max b c) ∈ edgesOf (a, b, c) := by
    rw [← canon_eq_min_max]; exact ebc
  have cca : (min c a, max c a) ∈ edgesOf (a, b, c) := by
    rw [← canon_eq_min_max]; exact eca
  rw [allEdges_childFaces_minmax] at h
  simp only [List.mem_cons, List.not_mem_nil, or_false] at h
  rcases h with h | h | h | h | h | h | h | h | h | h | h | h
  · exact Or.inl ⟨min c a, max c a, a, cca, by omega, by omega,
      by rw [h, mca]; congr 1 <;> omega⟩
  · exact Or.inl ⟨min a b, max a b, a, cab, by omega, by omega,
      by rw [h, mab]; congr 1 <;> omega⟩
  · exact Or.inr ⟨min a b, max a b, min c a, max c a, cab, cca, by omega, by omega,
      by intro hcon; injection hcon with h1 h2; omega,
      by rw [h, mab, mca]⟩
  · exact Or.inl ⟨min a b, max a b, b, cab, by omega, by omega,
      by rw [h, mab]; congr 1 <;> omega⟩
  · exact Or.inl ⟨min b c, max b c, b, cbc, by omega, by omega,
      by rw [h, mbc]; congr 1 <;> omega⟩
  · exact Or.inr ⟨min b c, max b c, min a b, max a b, cbc, cab, by omega, by omega,
      by intro hcon; injection hcon with h1 h2; omega,
      by rw [h, mab, mbc]⟩
  · exact Or.inl ⟨min b c, max b c, c, cbc, by omega, by omega,
      by rw [h, mbc]; congr 1 <;> omega⟩
  · exact Or.inl ⟨min c a, max c a, c, cca, by omega, by omega,
      by rw [h, mca]; congr 1 <;> omega⟩
  · exact Or.inr ⟨min c a, max c a, min b c, max b c, cca, cbc, by omega, by omega,
      by intro hcon; injection hcon with h1 h2; omega,
      by rw [h, mbc, mca]⟩
  · exact Or.inr ⟨min a b, max a b, min b c, max b c, cab, cbc, by omega, by omega,
      by intro hcon; injection hcon with h1 h2; omega,
      by rw [h, mab, mbc]⟩
  · exact Or.inr ⟨min b c, max b c, min c a, max c a, cbc, cca, by omega, by omega,
      by intro hcon; injection hcon with h1 h2; omega,
      by rw [h, mbc, mca]⟩
  · exact Or.inr ⟨min c a, max c a, min a b, max a b, cca, cab, by omega, by omega,
      by intro hcon; injection hcon with h1 h2; omega,
      by rw [h, mab, mca]⟩

theorem sum_map_ite_two {α : Type} (P : α → Prop) [DecidablePred P] (l : List α) :
    (l.map (fun f => if P f then (2 : ℕ) else 0)).sum =
      2 * l.countP (fun f => decide (P f)) := by
  induction l with
  | nil => simp
  | cons x l ih => by_cases h : P x <;> simp [List.countP_cons, h, ih] <;> ring

theorem countP_le_one_of_pairwise {α : Type} {P : α → Prop} [DecidablePred P] {l : List α}
    (h : l.Pairwise fun f g => ¬(P f ∧ P g)) :
    l.countP (fun f => decide (P f)) ≤ 1 := by
  induction l with
  | nil => simp
  | cons x l ih =>
      rw [List.pairwise_cons] at h
      by_cases hx : P x
      · have h0 : l.countP (fun f => decide (P f)) = 0 := by
          rw [List.countP_eq_zero]
          intro f hf
          simp only [decide_eq_true_eq]
          intro hPf
          exact h.1 f hf ⟨hx, hPf⟩
        simp [List.countP_cons, hx, h0]
      · have := ih h.2
        simp only [List.countP_cons, hx]
        simpa using this

theorem m_prop_of_canon_mem {m : ℕ → ℕ → ℕ} {faces : List Face} (P : ℕ → Prop)
    (Hsym : ∀ u v, m u v = m v u)
    (H : ∀ e ∈ allEdges faces, P (m e.1 e.2)) {u v : ℕ}
    (h : canon u v ∈ allEdges faces) : P (m u v) := by
  have h0 := H _ h
  rw [canon_eq_min_max] at h0
  rw [show m u v = m (min u v) (max u v) from m_minmax Hsym u v]
  exact h0

theorem m_of_edge_eq {m : ℕ → ℕ → ℕ} (Hsym : ∀ u v, m u v = m v u) {p q u v : ℕ}
    (h : (p, q) = canon u v) : m p q = m u v := by
  rw [canon_eq_min_max] at h
  injection h with h1 h2
  subst h1; subst h2
  exact (m_minmax Hsym u v).symm

theorem m_edge_iff {m : ℕ → ℕ → ℕ} {faces : List Face}
    (Hsym : ∀ u v, m u v = m v u)
    (Hinj : ∀ e ∈ allEdges faces, ∀ e2 ∈ allEdges faces,
      m e.1 e.2 = m e2.1 e2.2 → e = e2)
    {u v p q : ℕ} (huv : canon u v ∈ allEdges faces)
    (hpq : (p, q) ∈ allEdges faces) :
    m u v = m p q ↔ (min u v = p ∧ max u v = q) := by
  constructor
  · intro h
    have e1 : m u v = m (canon u v).1 (canon u v).2 := by
      rw [canon_eq_min_max]
      exact m_minmax Hsym u v
    rw [e1] at h
    have h2 := Hinj _ huv _ hpq h
    rw [canon_eq_min_max] at h2
    injection h2 with c1 c2
    exact ⟨c1, c2⟩
  · rintro ⟨h1, h2⟩
    rw [m_minmax Hsym u v, h1, h2]

theorem m_ne_of_edges_ne {m : ℕ → ℕ → ℕ} {faces : List Face}
    (Hsym : ∀ u v, m u v = m v u)
    (Hinj : ∀ e ∈ allEdges faces, ∀ e2 ∈ allEdges faces,
      m e.1 e.2 = m e2.1 e2.2 → e = e2)
    {u v u2 v2 : ℕ} (h1 : canon u v ∈ allEdges faces) (h2 : canon u2 v2 ∈ allEdges faces)
    (hne : canon u v ≠ canon u2 v2) : m u v ≠ m u2 v2 := by
  intro h
  apply hne
  have e1 : m u v = m (canon u v).1 (canon u v).2 := by
    rw [canon_eq_min_max]; exact m_minmax Hsym u v
  have e2 : m u2 v2 = m (canon u2 v2).1 (canon u2 v2).2 := by
    rw [canon_eq_min_max]; exact m_minmax Hsym u2 v2
  rw [e1, e2] at h
  exact Hinj _ h1 _ h2 h

theorem edge_mem_of_m_eq {m : ℕ → ℕ → ℕ} {faces : List Face}
    (Hsym : ∀ u v, m u v = m v u)
    (Hinj : ∀ e ∈ allEdges faces, ∀ e2 ∈ allEdges faces,
      m e.1 e.2 = m e2.1 e2.2 → e = e2)
    {p q u v : ℕ} (hpq : (p, q) ∈ allEdges faces) (huv : canon u v ∈ allEdges faces)
    (h : m p q = m u v) : (p, q) = canon u v := by
  have e1 : m (canon u v).1 (canon u v).2 = m u v := by
    rw [canon_eq_min_max]
    exact (m_minmax Hsym u v).symm
  refine Hinj _ hpq _ huv ?_
  show m p q = _
  rw [e1]
  exact h

theorem allEdges_subdivided (m : ℕ → ℕ → ℕ) (faces : List Face) :
    allEdges (subdivided m faces) =
      faces.flatMap fun f => allEdges (childFaces m f) := by
  simp only [allEdges, subdivided]
  rw [List.flatMap_assoc]

theorem closed_subdivided {nV : ℕ} {m : ℕ → ℕ → ℕ} {faces : List Face}
    (hv : ∀ f ∈ faces, validFace nV f) (hd : ∀ f ∈ faces, distinctFace f)
    (hc : closed faces) (hs : sep faces)
    (Hsym : ∀ u v, m u v = m v u)
    (Hinj : ∀ e ∈ allEdges faces, ∀ e2 ∈ allEdges faces,
      m e.1 e.2 = m e2.1 e2.2 → e = e2)
    (Hfr : ∀ e ∈ allEdges faces, nV ≤ m e.1 e.2) :
    closed (subdivided m faces) := by
  intro e' he'
  rw [allEdges_subdivided] at he' ⊢
  obtain ⟨f₀, hf₀, hef₀⟩ := List.mem_flatMap.1 he'
  rcases childEdges_shape Hsym Hfr hf₀ (hv _ hf₀) (hd _ hf₀) hef₀ with
    ⟨p, q, x, hpe, hplt, hx, rfl⟩ | ⟨p1, q1, p2, q2, h1e, h2e, h1lt, h2lt, hne, rfl⟩
  · have hpq_mem : (p, q) ∈ allEdges faces := mem_allEdges_of_mem hf₀ hpe
    have hpn := allEdges_lt hv hpq_mem
    rw [List.count_flatMap]
    have step : (faces.map (List.count (x, m p q) ∘ fun f => allEdges (childFaces m f))).sum
        = (faces.map (List.count (p, q) ∘ edgesOf)).sum := by
      congr 1
      apply List.map_eq_map_iff.mpr
      intro f hf
      obtain ⟨a, b, c⟩ := f
      obtain ⟨ha, hb, hc⟩ : a < nV ∧ b < nV ∧ c < nV := hv _ hf
      obtain ⟨hab, hbc, hca⟩ : a ≠ b ∧ b ≠ c ∧ a ≠ c := hd _ hf
      have eab : canon a b ∈ allEdges faces :=
        mem_allEdges_of_mem hf (by simp [edgesOf])
      have ebc : canon b c ∈ allEdges faces :=
        mem_allEdges_of_mem hf (by simp [edgesOf])
      have eca : canon c a ∈ allEdges faces :=
        mem_allEdges_of_mem hf (by simp [edgesOf])
      have fab : nV ≤ m a b := m_prop_of_canon_mem _ Hsym Hfr eab
      have fbc : nV ≤ m b c := m_prop_of_canon_mem _ Hsym Hfr ebc
      have fca : nV ≤ m c a := m_prop_of_canon_mem _ Hsym Hfr eca
      have fm : nV ≤ m p q := Hfr _ hpq_mem
      simp only [Function.comp_apply]
      rw [allEdges_childFaces_minmax, edgesOf_minmax]
      exact count12_half a b c x p q (m p q) (m a b) (m b c) (m c a) nV
        ha hb hc hpn.1 hpn.2 hab hbc hca fab fbc fca fm
        (m_edge_iff Hsym Hinj eab hpq_mem) (m_edge_iff Hsym Hinj ebc hpq_mem)
        (m_edge_iff Hsym Hinj eca hpq_mem) hplt hx
    rw [step, ← List.count_flatMap]
    exact hc _ hpq_mem
  · have h1mem : (p1, q1) ∈ allEdges faces := mem_allEdges_of_mem hf₀ h1e
    have h2mem : (p2, q2) ∈ allEdges faces := mem_allEdges_of_mem hf₀ h2e
    have fm1 : nV ≤ m p1 q1 := Hfr _ h1mem
    have fm2 : nV ≤ m p2 q2 := Hfr _ h2mem
    have h12 : m p1 q1 ≠ m p2 q2 := by
      intro h
      exact hne (Hinj _ h1mem _ h2mem h)
    have hcan1 : canon p1 q1 = (p1, q1) := canon_of_le (le_of_lt h1lt)
    have hcan2 : canon p2 q2 = (p2, q2) := canon_of_le (le_of_lt h2lt)
    rw [List.count_flatMap]
    have step : (faces.map
          (List.count (min (m p1 q1) (m p2 q2), max (m p1 q1) (m p2 q2)) ∘
            fun f => allEdges (childFaces m f))).sum
        = (faces.map (fun f =>
            if (p1, q1) ∈ edgesOf f ∧ (p2, q2) ∈ edgesOf f then (2 : ℕ) else 0)).sum := by
      congr 1
      apply List.map_eq_map_iff.mpr
      intro f hf
      obtain ⟨a, b, c⟩ := f
      obtain ⟨ha, hb, hc⟩ : a < nV ∧ b < nV ∧ c < nV := hv _ hf
      obtain ⟨hab, hbc, hca⟩ : a ≠ b ∧ b ≠ c ∧ a ≠ c := hd _ hf
      have eab : canon a b ∈ allEdges faces :=
        mem_allEdges_of_mem hf (by simp [edgesOf])
      have ebc : canon b c ∈ allEdges faces :=
        mem_allEdges_of_mem hf (by simp [edgesOf])
      have eca : canon c a ∈ allEdges faces :=
        mem_allEdges_of_mem hf (by simp [edgesOf])
      have fab : nV ≤ m a b := m_prop_of_canon_mem _ Hsym Hfr eab
      have fbc : nV ≤ m b c := m_prop_of_canon_mem _ Hsym Hfr ebc
      have fca : nV ≤ m c a := m_prop_of_canon_mem _ Hsym Hfr eca
      have hde := edges_ne (hd _ hf)
      have d1 : m a b ≠ m b c := m_ne_of_edges_ne Hsym Hinj eab ebc hde.1
      have d2 : m b c ≠ m c a := m_ne_of_edges_ne Hsym Hinj ebc eca hde.2.1
      have d3 : m a b ≠ m c a := m_ne_of_edges_ne Hsym Hinj eab eca hde.2.2
      simp only [Function.comp_apply]
      rw [allEdges_childFaces_minmax]
      by_cases hP : (p1, q1) ∈ edgesOf (a, b, c) ∧ (p2, q2) ∈ edgesOf (a, b, c)
      · rw [if_pos hP]
        have hm1 : m p1 q1 = m a b ∨ m p1 q1 = m b c ∨ m p1 q1 = m c a := by
          rcases mem_edgesOf_iff.1 hP.1 with h' | h' | h'
          · exact Or.inl (m_of_edge_eq Hsym h')
          · exact Or.inr (Or.inl (m_of_edge_eq Hsym h'))
          · exact Or.inr (Or.inr (m_of_edge_eq Hsym h'))
        have hm2 : m p2 q2 = m a b ∨ m p2 q2 = m b c ∨ m p2 q2 = m c a := by
          rcases mem_edgesOf_iff.1 hP.2 with h' | h' | h'
          · exact Or.inl (m_of_edge_eq Hsym h')
          · exact Or.inr (Or.inl (m_of_edge_eq Hsym h'))
          · exact Or.inr (Or.inr (m_of_edge_eq Hsym h'))
        exact count12_inner_two a b c (m p1 q1) (m p2 q2) (m a b) (m b c) (m c a) nV
          ha hb hc fab fbc fca d1 d2 d3 h12 hm1 hm2
      · rw [if_neg hP]
        apply count12_inner_zero a b c (m p1 q1) (m p2 q2) (m a b) (m b c) (m c a) nV
          ha hb hc fab fbc fca fm1 fm2
        rintro ⟨hA, hB⟩
        apply hP
        constructor
        · rcases hA with h' | h' | h'
          · rw [edge_mem_of_m_eq Hsym Hinj h1mem eab h']; simp [edgesOf]
          · rw [edge_mem_of_m_eq Hsym Hinj h1mem ebc h']; simp [edgesOf]
          · rw [edge_mem_of_m_eq Hsym Hinj h1mem eca h']; simp [edgesOf]
        · rcases hB with h' | h' | h'
          · rw [edge_mem_of_m_eq Hsym Hinj h2mem eab h']; simp [edgesOf]
          · rw [edge_mem_of_m_eq Hsym Hinj h2mem ebc h']; simp [edgesOf]
          · rw [edge_mem_of_m_eq Hsym Hinj h2mem eca h']; simp [edgesOf]
    rw [step, sum_map_ite_two]
    have hpair : faces.Pairwise fun f g =>
        ¬(((p1, q1) ∈ edgesOf f ∧ (p2, q2) ∈ edgesOf f) ∧
          ((p1, q1) ∈ edgesOf g ∧ (p2, q2) ∈ edgesOf g)) := by
      refine List.Pairwise.imp_of_mem ?_ hs
      intro f g hf hg hnv hPP
      exact hnv (vsetEq_of_shared_edges (hd _ hf) (hd _ hg) hne
        hPP.1.1 hPP.1.2 hPP.2.1 hPP.2.2)
    have hle := countP_le_one_of_pairwise hpair
    have hpos : 0 < faces.countP
        (fun f => decide ((p1, q1) ∈ edgesOf f ∧ (p2, q2) ∈ edgesOf f)) :=
      List.countP_pos.mpr ⟨f₀, hf₀, decide_eq_true ⟨h1e, h2e⟩⟩
    omega

theorem canon_eq_of_m_eq {m : ℕ → ℕ → ℕ} {faces : List Face}
    (Hsym : ∀ u v, m u v = m v u)
    (Hinj : ∀ e ∈ allEdges faces, ∀ e2 ∈ allEdges faces,
      m e.1 e.2 = m e2.1 e2.2 → e = e2)
    {u v u2 v2 : ℕ} (h1 : canon u v ∈ allEdges faces) (h2 : canon u2 v2 ∈ allEdges faces)
    (h : m u v = m u2 v2) : canon u v = canon u2 v2 := by
  have e1 : m u v = m (canon u v).1 (canon u v).2 := by
    rw [canon_eq_min_max]; exact m_minmax Hsym u v
  have e2 : m u2 v2 = m (canon u2 v2).1 (canon u2 v2).2 := by
    rw [canon_eq_min_max]; exact m_minmax Hsym u2 v2
  rw [e1, e2] at h
  exact Hinj _ h1 _ h2 h

theorem validDistinct_subdivided {nV nV' : ℕ} {m : ℕ → ℕ → ℕ} {faces : List Face}
    (hv : ∀ f ∈ faces, validFace nV f) (hd : ∀ f ∈ faces, distinctFace f)
    (Hsym : ∀ u v, m u v = m v u)
    (Hinj : ∀ e ∈ allEdges faces, ∀ e2 ∈ allEdges faces,
      m e.1 e.2 = m e2.1 e2.2 → e = e2)
    (Hfr : ∀ e ∈ allEdges faces, nV ≤ m e.1 e.2 ∧ m e.1 e.2 < nV')
    (hnn : nV ≤ nV') :
    ∀ u ∈ subdivided m faces, validFace nV' u ∧ distinctFace u := by
  intro u hu
  obtain ⟨f, hf, huf⟩ := List.mem_flatMap.1 hu
  obtain ⟨a, b, c⟩ := f
  obtain ⟨ha, hb, hc⟩ : a < nV ∧ b < nV ∧ c < nV := hv _ hf
  obtain ⟨hab, hbc, hca⟩ : a ≠ b ∧ b ≠ c ∧ a ≠ c := hd _ hf
  have eab : canon a b ∈ allEdges faces := mem_allEdges_of_mem hf (by simp [edgesOf])
  have ebc : canon b c ∈ allEdges faces := mem_allEdges_of_mem hf (by simp [edgesOf])
  have eca : canon c a ∈ allEdges faces := mem_allEdges_of_mem hf (by simp [edgesOf])
  have fab : nV ≤ m a b ∧ m a b < nV' := m_prop_of_canon_mem (fun t => nV ≤ t ∧ t < nV') Hsym Hfr eab
  have fbc : nV ≤ m b c ∧ m b c < nV' := m_prop_of_canon_mem (fun t => nV ≤ t ∧ t < nV') Hsym Hfr ebc
  have fca : nV ≤ m c a ∧ m c a < nV' := m_prop_of_canon_mem (fun t => nV ≤ t ∧ t < nV') Hsym Hfr eca
  have hde := edges_ne (hd _ hf)
  have d1 : m a b ≠ m b c := m_ne_of_edges_ne Hsym Hinj eab ebc hde.1
  have d2 : m b c ≠ m c a := m_ne_of_edges_ne Hsym Hinj ebc eca hde.2.1
  have d3 : m a b ≠ m c a := m_ne_of_edges_ne Hsym Hinj eab eca hde.2.2
  simp only [childFaces, List.mem_cons, List.not_mem_nil, or_false] at huf
  rcases huf with rfl | rfl | rfl | rfl <;>
    refine ⟨⟨?_, ?_, ?_⟩, ?_, ?_, ?_⟩ <;> simp <;> omega

theorem corner_inner_not_vsetEq {nV x mu1 mu2 w1 w2 w3 : ℕ} (hx : x < nV)
    (b1 : nV ≤ w1) (b2 : nV ≤ w2) (b3 : nV ≤ w3) :
    ¬ vsetEq (mu1, x, mu2) (w1, w2, w3) := by
  rintro ⟨hA, _⟩
  have := hA x (by simp [vset])
  simp only [vset, List.mem_cons, List.not_mem_nil, or_false] at this
  omega

theorem inner_corner_not_vsetEq {nV x mu1 mu2 w1 w2 w3 : ℕ} (hx : x < nV)
    (b1 : nV ≤ w1) (b2 : nV ≤ w2) (b3 : nV ≤ w3) :
    ¬ vsetEq (w1, w2, w3) (mu1, x, mu2) := by
  rintro ⟨_, hB⟩
  have := hB x (by simp [vset])
  simp only [vset, List.mem_cons, List.not_mem_nil, or_false] at this
  omega

theorem corner_corner_not_vsetEq {nV : ℕ} {m : ℕ → ℕ → ℕ} {faces : List Face}
    (Hsym : ∀ u v, m u v = m v u)
    (Hinj : ∀ e ∈ allEdges faces, ∀ e2 ∈ allEdges faces,
      m e.1 e.2 = m e2.1 e2.2 → e = e2)
    (Hfr : ∀ e ∈ allEdges faces, nV ≤ m e.1 e.2)
    {f g : Face} (hfm : f ∈ faces) (hgm : g ∈ faces)
    (hdf : distinctFace f) (hdg : distinctFace g) (hnv : ¬ vsetEq f g)
    {x u1 v1 u2 v2 x' u1' v1' u2' v2' : ℕ} (hx : x < nV) (hx' : x' < nV)
    (e1 : canon u1 v1 ∈ edgesOf f) (e2 : canon u2 v2 ∈ edgesOf f)
    (e12 : canon u1 v1 ≠ canon u2 v2)
    (e1' : canon u1' v1' ∈ edgesOf g) (e2' : canon u2' v2' ∈ edgesOf g) :
    ¬ vsetEq (m u1 v1, x, m u2 v2) (m u1' v1', x', m u2' v2') := by
  rintro ⟨hA, _⟩
  have a1 := mem_allEdges_of_mem hfm e1
  have a2 := mem_allEdges_of_mem hfm e2
  have a1' := mem_allEdges_of_mem hgm e1'
  have a2' := mem_allEdges_of_mem hgm e2'
  have b1 : nV ≤ m u1 v1 := m_prop_of_canon_mem _ Hsym Hfr a1
  have b2 : nV ≤ m u2 v2 := m_prop_of_canon_mem _ Hsym Hfr a2
  have h1 := hA (m u1 v1) (by simp [vset])
  have h2 := hA (m u2 v2) (by simp [vset])
  simp only [vset, List.mem_cons, List.not_mem_nil, or_false] at h1 h2
  have c1 : canon u1 v1 ∈ edgesOf g := by
    rcases h1 with h | h | h
    · rw [canon_eq_of_m_eq Hsym Hinj a1 a1' h]; exact e1'
    · omega
    · rw [canon_eq_of_m_eq Hsym Hinj a1 a2' h]; exact e2'
  have c2 : canon u2 v2 ∈ edgesOf g := by
    rcases h2 with h | h | h
    · rw [canon_eq_of_m_eq Hsym Hinj a2 a1' h]; exact e1'
    · omega
    · rw [canon_eq_of_m_eq Hsym Hinj a2 a2' h]; exact e2'
  exact hnv (vsetEq_of_shared_edges hdf hdg e12 e1 e2 c1 c2)

theorem inner_inner_not_vsetEq {nV : ℕ} {m : ℕ → ℕ → ℕ} {faces : List Face}
    (Hsym : ∀ u v, m u v = m v u)
    (Hinj : ∀ e ∈ allEdges faces, ∀ e2 ∈ allEdges faces,
      m e.1 e.2 = m e2.1 e2.2 → e = e2)
    (Hfr : ∀ e ∈ allEdges faces, nV ≤ m e.1 e.2)
    {f g : Face} (hfm : f ∈ faces) (hgm : g ∈ faces)
    (hdf : distinctFace f) (hdg : distinctFace g) (hnv : ¬ vsetEq f g)
    {u1 v1 u2 v2 u3 v3 u1' v1' u2' v2' u3' v3' : ℕ}
    (e1 : canon u1 v1 ∈ edgesOf f) (e2 : canon u2 v2 ∈ edgesOf f)
    (e12 : canon u1 v1 ≠ canon u2 v2)
    (e1' : canon u1' v1' ∈ edgesOf g) (e2' : canon u2' v2' ∈ edgesOf g)
    (e3' : canon u3' v3' ∈ edgesOf g) :
    ¬ vsetEq (m u1 v1, m u2 v2, m u3 v3) (m u1' v1', m u2' v2', m u3' v3') := by
  rintro ⟨hA, _⟩
  have a1 := mem_allEdges_of_mem hfm e1
  have a2 := mem_allEdges_of_mem hfm e2
  have a1' := mem_allEdges_of_mem hgm e1'
  have a2' := mem_allEdges_of_mem hgm e2'
  have a3' := mem_allEdges_of_mem hgm e3'
  have h1 := hA (m u1 v1) (by simp [vset])
  have h2 := hA (m u2 v2) (by simp [vset])
  simp only [vset, List.mem_cons, List.not_mem_nil, or_false] at h1 h2
  have c1 : canon u1 v1 ∈ edgesOf g := by
    rcases h1 with h | h | h
    · rw [canon_eq_of_m_eq Hsym Hinj a1 a1' h]; exact e1'
    · rw [canon_eq_of_m_eq Hsym Hinj a1 a2' h]; exact e2'
    · rw [canon_eq_of_m_eq Hsym Hinj a1 a3' h]; exact e3'
  have c2 : canon u2 v2 ∈ edgesOf g := by
    rcases h2 with h | h | h
    · rw [canon_eq_of_m_eq Hsym Hinj a2 a1' h]; exact e1'
    · rw [canon_eq_of_m_eq Hsym Hinj a2 a2' h]; exact e2'
    · rw [canon_eq_of_m_eq Hsym Hinj a2 a3' h]; exact e3'
  exact hnv (vsetEq_of_shared_edges hdf hdg e12 e1 e2 c1 c2)

theorem childFaces_pairwise_not_vsetEq {nV : ℕ} {m : ℕ → ℕ → ℕ} {faces : List Face}
    {f : Face} (Hsym : ∀ u v, m u v = m v u)
    (Hfr : ∀ e ∈ allEdges faces, nV ≤ m e.1 e.2)
    (hf : f ∈ faces) (hv : validFace nV f) (hd : distinctFace f) :
    (childFaces m f).Pairwise fun u u' => ¬ vsetEq u u' := by
  obtain ⟨a, b, c⟩ := f
  obtain ⟨ha, hb, hc⟩ : a < nV ∧ b < nV ∧ c < nV := hv
  obtain ⟨hab, hbc, hca⟩ : a ≠ b ∧ b ≠ c ∧ a ≠ c := hd
  have eab : canon a b ∈ allEdges faces := mem_allEdges_of_mem hf (by simp [edgesOf])
  have ebc : canon b c ∈ allEdges faces := mem_allEdges_of_mem hf (by simp [edgesOf])
  have eca : canon c a ∈ allEdges faces := mem_allEdges_of_mem hf (by simp [edgesOf])
  have fab : nV ≤ m a b := m_prop_of_canon_mem _ Hsym Hfr eab
  have fbc : nV ≤ m b c := m_prop_of_canon_mem _ Hsym Hfr ebc
  have fca : nV ≤ m c a := m_prop_of_canon_mem _ Hsym Hfr eca
  refine List.Pairwise.cons ?_ (List.Pairwise.cons ?_ (List.Pairwise.cons ?_ ?_))
  · intro u' hu'
    simp only [List.mem_cons, List.not_mem_nil, or_false] at hu'
    rcases hu' with rfl | rfl | rfl <;>
      (rintro ⟨hA, _⟩
       have := hA a (by simp [vset])
       simp only [vset, List.mem_cons, List.not_mem_nil, or_false] at this
       omega)
  · intro u' hu'
    simp only [List.mem_cons, List.not_mem_nil, or_false] at hu'
    rcases hu' with rfl | rfl <;>
      (rintro ⟨hA, _⟩
       have := hA b (by simp [vset])
       simp only [vset, List.mem_cons, List.not_mem_nil, or_false] at this
       omega)
  · intro u' hu'
    simp only [List.mem_cons, List.not_mem_nil, or_false] at hu'
    rcases hu' with rfl <;>
      (rintro ⟨hA, _⟩
       have := hA c (by simp [vset])
       simp only [vset, List.mem_cons, List.not_mem_nil, or_false] at this
       omega)
  · simp

theorem sep_subdivided {nV : ℕ} {m : ℕ → ℕ → ℕ} {faces : List Face}
    (hv : ∀ f ∈ faces, validFace nV f) (hd : ∀ f ∈ faces, distinctFace f)
    (hs : sep faces)
    (Hsym : ∀ u v, m u v = m v u)
    (Hinj : ∀ e ∈ allEdges faces, ∀ e2 ∈ allEdges faces,
      m e.1 e.2 = m e2.1 e2.2 → e = e2)
    (Hfr : ∀ e ∈ allEdges faces, nV ≤ m e.1 e.2) :
    sep (subdivided m faces) := by
  rw [sep, subdivided, List.pairwise_bind]
  constructor
  · intro f hf
    exact childFaces_pairwise_not_vsetEq Hsym Hfr hf (hv _ hf) (hd _ hf)
  · refine List.Pairwise.imp_of_mem ?_ hs
    intro f g hf hg hnv u hu u' hu'
    obtain ⟨a, b, c⟩ := f
    obtain ⟨a', b', c'⟩ := g
    obtain ⟨ha, hb, hc⟩ : a < nV ∧ b < nV ∧ c < nV := hv _ hf
    obtain ⟨hab, hbc, hca⟩ : a ≠ b ∧ b ≠ c ∧ a ≠ c := hd _ hf
    obtain ⟨ha', hb', hc'⟩ : a' < nV ∧ b' < nV ∧ c' < nV := hv _ hg
    obtain ⟨hab', hbc', hca'⟩ : a' ≠ b' ∧ b' ≠ c' ∧ a' ≠ c' := hd _ hg
    have hde := edges_ne (hd _ hf)
    have hde' := edges_ne (hd _ hg)
    have eab : canon a b ∈ edgesOf (a, b, c) := by simp [edgesOf]
    have ebc : canon b c ∈ edgesOf (a, b, c) := by simp [edgesOf]
    have eca : canon c a ∈ edgesOf (a, b, c) := by simp [edgesOf]
    have eab' : canon a' b' ∈ edgesOf (a', b', c') := by simp [edgesOf]
    have ebc' : canon b' c' ∈ edgesOf (a', b', c') := by simp [edgesOf]
    have eca' : canon c' a' ∈ edgesOf (a', b', c') := by simp [edgesOf]
    have fab' : nV ≤ m a' b' := m_prop_of_canon_mem _ Hsym Hfr (mem_allEdges_of_mem hg eab')
    have fbc' : nV ≤ m b' c' := m_prop_of_canon_mem _ Hsym Hfr (mem_allEdges_of_mem hg ebc')
    have fca' : nV ≤ m c' a' := m_prop_of_canon_mem _ Hsym Hfr (mem_allEdges_of_mem hg eca')
    have fab : nV ≤ m a b := m_prop_of_canon_mem _ Hsym Hfr (mem_allEdges_of_mem hf eab)
    have fbc : nV ≤ m b c := m_prop_of_canon_mem _ Hsym Hfr (mem_allEdges_of_mem hf ebc)
    have fca : nV ≤ m c a := m_prop_of_canon_mem _ Hsym Hfr (mem_allEdges_of_mem hf eca)
    simp only [childFaces, List.mem_cons, List.not_mem_nil, or_false] at hu hu'
    rcases hu with rfl | rfl | rfl | rfl <;> rcases hu' with rfl | rfl | rfl | rfl
    · exact corner_corner_not_vsetEq Hsym Hinj Hfr hf hg (hd _ hf) (hd _ hg) hnv
        ha ha' eca eab (Ne.symm hde.2.2) eca' eab'
    · exact corner_corner_not_vsetEq Hsym Hinj Hfr hf hg (hd _ hf) (hd _ hg) hnv
        ha hb' eca eab (Ne.symm hde.2.2) eab' ebc'
    · exact corner_corner_not_vsetEq Hsym Hinj Hfr hf hg (hd _ hf) (hd _ hg) hnv
        ha hc' eca eab (Ne.symm hde.2.2) ebc' eca'
    · exact corner_inner_not_vsetEq ha fab' fbc' fca'
    · exact corner_corner_not_vsetEq Hsym Hinj Hfr hf hg (hd _ hf) (hd _ hg) hnv
        hb ha' eab ebc hde.1 eca' eab'
    · exact corner_corner_not_vsetEq Hsym Hinj Hfr hf hg (hd _ hf) (hd _ hg) hnv
        hb hb' eab ebc hde.1 eab' ebc'
    · exact corner_corner_not_vsetEq Hsym Hinj Hfr hf hg (hd _ hf) (hd _ hg) hnv
        hb hc' eab ebc hde.1 ebc' eca'
    · exact corner_inner_not_vsetEq hb fab' fbc' fca'
    · exact corner_corner_not_vsetEq Hsym Hinj Hfr hf hg (hd _ hf) (hd _ hg) hnv
        hc ha' ebc eca hde.2.1 eca' eab'
    · exact corner_corner_not_vsetEq Hsym Hinj Hfr hf hg (hd _ hf) (hd _ hg) hnv
        hc hb' ebc eca hde.2.1 eab' ebc'
    · exact corner_corner_not_vsetEq Hsym Hinj Hfr hf hg (hd _ hf) (hd _ hg) hnv
        hc hc' ebc eca hde.2.1 ebc' eca'
    · exact corner_inner_not_vsetEq hc fab' fbc' fca'
    · exact inner_corner_not_vsetEq ha' fab fbc fca
    · exact inner_corner_not_vsetEq hb' fab fbc fca
    · exact inner_corner_not_vsetEq hc' fab fbc fca
    · exact inner_inner_not_vsetEq Hsym Hinj Hfr hf hg (hd _ hf) (hd _ hg) hnv
        eab ebc hde.1 eab' ebc' eca'

instance (n : ℕ) (f : Face) : Decidable (validFace n f) := by
  unfold validFace; infer_instance

instance (f : Face) : Decidable (distinctFace f) := by
  unfold distinctFace; infer_instance

instance (faces : List Face) : Decidable (closed faces) := by
  unfold closed; infer_instance

instance (f f' : Face) : Decidable (vsetEq f f') := by
  unfold vsetEq; infer_instance

instance (faces : List Face) : Decidable (sep faces) := by
  unfold sep; infer_instance

instance (n : ℕ) (faces : List Face) : Decidable (meshInvariant n faces) := by
  unfold meshInvariant; infer_instance

instance (n : ℕ) (faces : List Face) : Decidable (meshOK n faces) := by
  unfold meshOK; infer_instance

theorem meshOK_subdivided {nV nV' : ℕ} {m : ℕ → ℕ → ℕ} {faces : List Face}
    (h : meshOK nV faces)
    (Hsym : ∀ u v, m u v = m v u)
    (Hinj : ∀ e ∈ allEdges faces, ∀ e2 ∈ allEdges faces,
      m e.1 e.2 = m e2.1 e2.2 → e = e2)
    (Hfr : ∀ e ∈ allEdges faces, nV ≤ m e.1 e.2 ∧ m e.1 e.2 < nV')
    (hnn : nV ≤ nV') : meshOK nV' (subdivided m faces) := by
  obtain ⟨⟨hvd, hc⟩, hs⟩ := h
  have hv : ∀ f ∈ faces, validFace nV f := fun f hf => (hvd f hf).1
  have hd : ∀ f ∈ faces, distinctFace f := fun f hf => (hvd f hf).2
  have Hfr1 : ∀ e ∈ allEdges faces, nV ≤ m e.1 e.2 := fun e he => (Hfr e he).1
  exact ⟨⟨validDistinct_subdivided hv hd Hsym Hinj Hfr hnn,
    closed_subdivided hv hd hc hs Hsym Hinj Hfr1⟩,
    sep_subdivided hv hd hs Hsym Hinj Hfr1⟩

theorem PassInv_init (interp : Interp σ) (vs : List Vec3) : PassInv interp vs vs [] := by
  refine ⟨⟨[], by simp⟩, by simp, by simp, by simp, by simp, ?_, by simp⟩
  intro i h1 h2
  exact absurd h2 (by omega)

/-- One pass of `refine_mesh` preserves the strengthened mesh invariant. -/
theorem meshOK_refine_mesh {σ : Type} (interp : Interp σ) (vs : List Vec3)
    (faces : List Face) (g : σ) (h : meshOK vs.length faces) :
    meshOK (refine_mesh interp vs faces g).1.length (refine_mesh interp vs faces g).2.1 := by
  obtain ⟨hinv, ⟨ext, hext⟩, hstab, hsome, hfaces, hlen⟩ :=
    refineAux_spec interp vs faces vs [] g (PassInv_init interp vs)
  have hkey : ∀ e ∈ allEdges faces,
      ∃ i, slookup (refineAux interp faces vs [] g).splits e = some i := by
    intro e he
    have h1 := (hsome e).2 (Or.inr he)
    exact Option.isSome_iff_exists.1 h1
  have Hsym : ∀ u v, splitMap interp vs faces g u v = splitMap interp vs faces g v u := by
    intro u v
    rw [splitMap, splitMap, canon_comm]
  have Hinj : ∀ e ∈ allEdges faces, ∀ e2 ∈ allEdges faces,
      splitMap interp vs faces g e.1 e.2 = splitMap interp vs faces g e2.1 e2.2 →
        e = e2 := by
    intro e he e2 he2 heq
    obtain ⟨i, hi⟩ := hkey e he
    obtain ⟨i2, hi2⟩ := hkey e2 he2
    rw [splitMap, splitMap, canon_of_mem_allEdges he, canon_of_mem_allEdges he2,
      hi, hi2] at heq
    simp only [Option.getD_some] at heq
    subst heq
    exact slookup_inj hinv.keysNodup hinv.valsNodup hi hi2
  have Hfr : ∀ e ∈ allEdges faces,
      vs.length ≤ splitMap interp vs faces g e.1 e.2 ∧
        splitMap interp vs faces g e.1 e.2 <
          (refine_mesh interp vs faces g).1.length := by
    intro e he
    obtain ⟨i, hi⟩ := hkey e he
    have hmem := slookup_mem hi
    have hb := hinv.bounds _ hmem
    rw [splitMap, canon_of_mem_allEdges he, hi]
    simpa using hb
  have hfe : (refine_mesh interp vs faces g).2.1 =
      subdivided (splitMap interp vs faces g) faces := hfaces
  rw [hfe]
  exact meshOK_subdivided h Hsym Hinj Hfr hlen

theorem meshOK_refineFrom {σ : Type} (rules : ℕ → Interp σ) :
    ∀ (k i : ℕ) (st : List Vec3 × List Face × σ), meshOK st.1.length st.2.1 →
    meshOK (refineFrom rules i k st).1.length (refineFrom rules i k st).2.1 := by
  intro k
  induction k with
  | zero => intro i st h; exact h
  | succ k ih =>
      intro i st h
      exact ih (i + 1) _ (meshOK_refine_mesh (rules i) st.1 st.2.1 st.2.2 h)

theorem octahedron_meshOK : meshOK octahedron_vertices.length octahedron_faces := by
  decide

/-- C1: for every mesh reachable by applying 0 through 9 refinement passes
(with arbitrary per-pass interpolation rules and generator state) to the base
octahedron, the mesh invariant holds: every face index is below the vertex
count, no face references the same vertex twice, and every undirected edge
occurs in exactly two faces; each pass preserves it by construction. -/
theorem c1_reachable_meshInvariant {σ : Type} (rules : ℕ → Interp σ) (g : σ)
    (n : ℕ) (hn : n ≤ 9) :
    meshInvariant
      (refineFrom rules 0 n (octahedron_vertices, octahedron_faces, g)).1.length
      (refineFrom rules 0 n (octahedron_vertices, octahedron_faces, g)).2.1 :=
  (meshOK_refineFrom rules n 0 (octahedron_vertices, octahedron_faces, g)
    octahedron_meshOK).1

/-- Witness for C1 at two passes with a concrete interpolation rule. -/
theorem c1_reachable_meshInvariant_witness :
    meshInvariant
      (refineFrom (fun _ v1 v2 (s : Unit) => (v1, s)) 0 2
        (octahedron_vertices, octahedron_faces, ())).1.length
      (refineFrom (fun _ v1 v2 (s : Unit) => (v1, s)) 0 2
        (octahedron_vertices, octahedron_faces, ())).2.1 :=
  c1_reachable_meshInvariant (fun _ v1 v2 s => (v1, s)) () 2 (by decide)

theorem subdivided_length (m : ℕ → ℕ → ℕ) (faces : List Face) :
    (subdivided m faces).length = 4 * faces.length := by
  induction faces with
  | nil => rfl
  | cons f fs ih =>
      simp only [subdivided, List.flatMap_cons, List.length_append] at ih ⊢
      simp only [childFaces, List.length_cons, List.length_nil, List.length_cons]
      omega

/-- C2: one application of `refine_mesh` returns exactly four times as many
faces, each parent face `(a, b, c)` replaced in order by the four children
`(c_a, a, a_b), (a_b, b, b_c), (b_c, c, c_a), (a_b, b_c, c_a)` built from
the pass's split-index map. -/
theorem c2_refine_mesh_faces {σ : Type} (interp : Interp σ) (vs : List Vec3)
    (faces : List Face) (g : σ) (hvalid : ∀ f ∈ faces, validFace vs.length f) :
    (refine_mesh interp vs faces g).2.1.length = 4 * faces.length ∧
    (refine_mesh interp vs faces g).2.1 =
      subdivided (splitMap interp vs faces g) faces := by
  obtain ⟨hinv, hext, hstab, hsome, hfaces, hlen⟩ :=
    refineAux_spec interp vs faces vs [] g (PassInv_init interp vs)
  have h2 : (refine_mesh interp vs faces g).2.1 =
      subdivided (splitMap interp vs faces g) faces := hfaces
  exact ⟨by rw [h2, subdivided_length], h2⟩

/-- Witness for C2 at the octahedron with a constant interpolation rule. -/
theorem c2_refine_mesh_faces_witness :
    (∀ f ∈ octahedron_faces, validFace octahedron_vertices.length f) ∧
    (refine_mesh (fun v1 v2 (s : Unit) => (v1, s)) octahedron_vertices octahedron_faces
      ()).2.1.length = 4 * octahedron_faces.length :=
  ⟨by decide, (c2_refine_mesh_faces (fun v1 v2 s => (v1, s)) octahedron_vertices
    octahedron_faces () (by decide)).1⟩

/-- C3: one application of `refine_mesh` appends exactly one new vertex per
distinct undirected edge of the input faces, leaving the input vertices as an
unchanged initial segment. -/
theorem c3_refine_mesh_vertices {σ : Type} (interp : Interp σ) (vs : List Vec3)
    (faces : List Face) (g : σ) (hvalid : ∀ f ∈ faces, validFace vs.length f) :
    (refine_mesh interp vs faces g).1.length = vs.length + uniqueEdgeCount faces ∧
    ∃ t, (refine_mesh interp vs faces g).1 = vs ++ t := by
  obtain ⟨hinv, hext, hstab, hsome, hfaces, hlen⟩ :=
    refineAux_spec interp vs faces vs [] g (PassInv_init interp vs)
  constructor
  · have hlen2 : (refine_mesh interp vs faces g).1.length =
        vs.length + (refineAux interp faces vs [] g).splits.length := hinv.len
    rw [hlen2]
    congr 1
    have hkeys : ((refineAux interp faces vs [] g).splits.map Prod.fst).Nodup :=
      hinv.keysNodup
    have hmem : ∀ k, k ∈ (refineAux interp faces vs [] g).splits.map Prod.fst ↔
        k ∈ (allEdges faces).dedup := by
      intro k
      rw [← slookup_isSome_iff, hsome k, List.mem_dedup]
      simp [slookup]
    have hperm : List.Perm ((refineAux interp faces vs [] g).splits.map Prod.fst)
        (allEdges faces).dedup :=
      (List.perm_ext_iff_of_nodup hkeys (allEdges faces).nodup_dedup).2 hmem
    calc (refineAux interp faces vs [] g).splits.length
        = ((refineAux interp faces vs [] g).splits.map Prod.fst).length :=
          (List.length_map _ _).symm
      _ = (allEdges faces).dedup.length := hperm.length_eq
  · exact hinv.grows

/-- Witness for C3 at the octahedron: 6 input vertices plus 12 distinct
edges give 18 vertices. -/
theorem c3_refine_mesh_vertices_witness :
    (∀ f ∈ octahedron_faces, validFace octahedron_vertices.length f) ∧
    (refine_mesh (fun v1 v2 (s : Unit) => (v1, s)) octahedron_vertices octahedron_faces
      ()).1.length = octahedron_vertices.length + uniqueEdgeCount octahedron_faces :=
  ⟨by decide, (c3_refine_mesh_vertices (fun v1 v2 s => (v1, s)) octahedron_vertices
    octahedron_faces () (by decide)).1⟩

theorem split_vertex_lookup_after {σ : Type} (interp : Interp σ) (a b : ℕ)
    (vs : List Vec3) (sp : Splits) (g : σ) :
    slookup (split_vertex interp a b vs sp g).splits (canon a b) =
      some (split_vertex interp a b vs sp g).idx := by
  rcases h0 : slookup sp (canon a b) with _ | i
  · rw [split_vertex_miss h0]
    rw [slookup, if_pos rfl]
  · rw [split_vertex_hit h0]
    exact h0

/-- C4: within one pass, calling `split_vertex` a second time on the same
pair, or on the swapped pair, returns the cached index and leaves the vertex
list, the `splits` table and the generator state untouched (so no new vertex
is appended and no interpolation is invoked). -/
theorem c4_split_vertex_idempotent {σ : Type} (interp : Interp σ) (a b : ℕ)
    (vs : List Vec3) (sp : Splits) (g : σ) :
    split_vertex interp a b (split_vertex interp a b vs sp g).verts
        (split_vertex interp a b vs sp g).splits (split_vertex interp a b vs sp g).rng =
      ⟨(split_vertex interp a b vs sp g).idx, (split_vertex interp a b vs sp g).verts,
        (split_vertex interp a b vs sp g).splits,
        (split_vertex interp a b vs sp g).rng⟩ ∧
    split_vertex interp b a (split_vertex interp a b vs sp g).verts
        (split_vertex interp a b vs sp g).splits (split_vertex interp a b vs sp g).rng =
      ⟨(split_vertex interp a b vs sp g).idx, (split_vertex interp a b vs sp g).verts,
        (split_vertex interp a b vs sp g).splits,
        (split_vertex interp a b vs sp g).rng⟩ := by
  have hl := split_vertex_lookup_after interp a b vs sp g
  have hl' : slookup (split_vertex interp a b vs sp g).splits (canon b a) =
      some (split_vertex interp a b vs sp g).idx := by
    rw [canon_comm b a]
    exact hl
  exact ⟨split_vertex_hit hl, split_vertex_hit hl'⟩

theorem refine_mesh_length {σ : Type} (interp : Interp σ) (vs : List Vec3)
    (faces : List Face) (g : σ) :
    (refine_mesh interp vs faces g).1.length = vs.length + uniqueEdgeCount faces := by
  obtain ⟨hinv, hext, hstab, hsome, hfaces, hlen⟩ :=
    refineAux_spec interp vs faces vs [] g (PassInv_init interp vs)
  have hlen2 : (refine_mesh interp vs faces g).1.length =
      vs.length + (refineAux interp faces vs [] g).splits.length := hinv.len
  rw [hlen2]
  congr 1
  have hkeys : ((refineAux interp faces vs [] g).splits.map Prod.fst).Nodup :=
    hinv.keysNodup
  have hmem : ∀ k, k ∈ (refineAux interp faces vs [] g).splits.map Prod.fst ↔
      k ∈ (allEdges faces).dedup := by
    intro k
    rw [← slookup_isSome_iff, hsome k, List.mem_dedup]
    simp [slookup]
  have hperm : List.Perm ((refineAux interp faces vs [] g).splits.map Prod.fst)
      (allEdges faces).dedup :=
    (List.perm_ext_iff_of_nodup hkeys (allEdges faces).nodup_dedup).2 hmem
  calc (refineAux interp faces vs [] g).splits.length
      = ((refineAux interp faces vs [] g).splits.map Prod.fst).length :=
        (List.length_map _ _).symm
    _ = (allEdges faces).dedup.length := hperm.length_eq

theorem refine_mesh_faces_length {σ : Type} (interp : Interp σ) (vs : List Vec3)
    (faces : List Face) (g : σ) :
    (refine_mesh interp vs faces g).2.1.length = 4 * faces.length := by
  obtain ⟨hinv, hext, hstab, hsome, hfaces, hlen⟩ :=
    refineAux_spec interp vs faces vs [] g (PassInv_init interp vs)
  have h2 : (refine_mesh interp vs faces g).2.1 =
      subdivided (splitMap interp vs faces g) faces := hfaces
  rw [h2, subdivided_length]

/-- Every vertex appended by one pass is the interpolation of the two
endpoint positions of some undirected edge of the input faces. -/
theorem refine_mesh_tail_values {σ : Type} (interp : Interp σ) (vs : List Vec3)
    (faces : List Face) (g : σ) (hvalid : ∀ f ∈ faces, validFace vs.length f) :
    ∃ t, (refine_mesh interp vs faces g).1 = vs ++ t ∧
      ∀ v ∈ t, ∃ e ∈ allEdges faces, ∃ g0 : σ,
        v = (interp (vs.getD e.1 vzero) (vs.getD e.2 vzero) g0).1 := by
  obtain ⟨hinv, hext, hstab, hsome, hfaces, hlen⟩ :=
    refineAux_spec interp vs faces vs [] g (PassInv_init interp vs)
  obtain ⟨t, ht⟩ := hinv.grows
  refine ⟨t, ht, ?_⟩
  intro v hv
  obtain ⟨j, hj, rfl⟩ := List.mem_iff_getElem.1 hv
  have hidx : vs.length + j < (refineAux interp faces vs [] g).verts.length := by
    rw [ht, List.length_append]
    omega
  obtain ⟨k, hk⟩ := hinv.surj (vs.length + j) (by omega) hidx
  have hkmem : k ∈ allEdges faces := by
    have h1 : (slookup (refineAux interp faces vs [] g).splits k).isSome :=
      slookup_isSome_iff.2 (List.mem_map.2 ⟨(k, vs.length + j), hk, rfl⟩)
    rcases (hsome k).1 h1 with h2 | h2
    · simp [slookup] at h2
    · exact h2
  have hkb := allEdges_lt hvalid hkmem
  obtain ⟨g0, hg0⟩ := hinv.vals _ hk hkb.1 hkb.2
  refine ⟨k, hkmem, g0, ?_⟩
  rw [← hg0, ht]
  rw [List.getD_eq_getElem?_getD,
    List.getElem?_append_right (by omega : vs.length ≤ vs.length + j)]
  simp [hj]

theorem vmul_one (v : Vec3) : vmul v 1 = v := by
  simp [vmul]

/-- With the degenerate factor pair `(1, 1)` the interpolation reduces to the
exact midpoint-direction, magnitude-average formula. -/
theorem fractal_interpolate_pair_one (v1 v2 : Vec3) (s : Rng) :
    (fractal_interpolate v1 v2 (.pair 1 1) s).1 = midpoint_avg v1 v2 := by
  have h0 : (fractal_interpolate v1 v2 (.pair 1 1) s).1 =
      vmul (midpoint_avg v1 v2) (1 + (1 - 1) * s.1 s.2) := rfl
  have h1 : (1 : ℝ) + (1 - 1) * s.1 s.2 = 1 := by ring
  rw [h0, h1, vmul_one]

/-- C7: one fractal pass on the octahedron with the overshoot factor fixed at
1.0 yields 18 vertices and 32 faces, and every newly created vertex is the
unit-midpoint direction of its parent edge scaled by the average of the
parents' magnitudes. -/
theorem c7_one_fractal_pass (g : Rng) :
    (fractal_refinement 1 (fun _ => 1) g).1.length = 18 ∧
    (fractal_refinement 1 (fun _ => 1) g).2.1.length = 32 ∧
    ∃ t, (fractal_refinement 1 (fun _ => 1) g).1 = octahedron_vertices ++ t ∧
      ∀ v ∈ t, ∃ e ∈ allEdges octahedron_faces,
        v = midpoint_avg (octahedron_vertices.getD e.1 vzero)
          (octahedron_vertices.getD e.2 vzero) := by
  have heq : fractal_refinement 1 (fun _ => 1) g =
      refine_mesh (fun v1 v2 => fractal_interpolate v1 v2 (.pair 1 1))
        octahedron_vertices octahedron_faces g := rfl
  rw [heq]
  refine ⟨?_, ?_, ?_⟩
  · rw [refine_mesh_length]
    decide
  · rw [refine_mesh_faces_length]
    decide
  · obtain ⟨t, ht, hvals⟩ := refine_mesh_tail_values
      (fun v1 v2 => fractal_interpolate v1 v2 (.pair 1 1))
      octahedron_vertices octahedron_faces g (by decide)
    refine ⟨t, ht, ?_⟩
    intro v hv
    obtain ⟨e, he, g0, hg0⟩ := hvals v hv
    exact ⟨e, he, by rw [hg0, fractal_interpolate_pair_one]⟩

/-- C10: with the degenerate range `(x, x)` the drawn factor is exactly
`x + (x - x) * u = x`, so the call agrees with the scalar-factor call for
every state of the random source. -/
theorem c10_degenerate_range (v1 v2 : Vec3) (x : ℝ) (g g' : Rng) :
    (fractal_interpolate v1 v2 (.pair x x) g).1 =
      (fractal_interpolate v1 v2 (.scalar x) g').1 := by
  have h0 : (fractal_interpolate v1 v2 (.pair x x) g).1 =
      vmul (vmul (vdiv (scale 0.5 (v1 + v2)) (vnorm (scale 0.5 (v1 + v2))))
        (0.5 * (vnorm v1 + vnorm v2))) (x + (x - x) * g.1 g.2) := rfl
  have h1 : (fractal_interpolate v1 v2 (.scalar x) g').1 =
      vmul (vmul (vdiv (scale 0.5 (v1 + v2)) (vnorm (scale 0.5 (v1 + v2))))
        (0.5 * (vnorm v1 + vnorm v2))) x := rfl
  rw [h0, h1]
  congr 1
  ring

/-- C5 counterexample: at the antipodal parents `(1,0,0)` and `(-1,0,0)` the
midpoint has zero norm, yet `fractal_interpolate` raises nothing and returns
the degenerate value (the zero vector in the real-valued model). -/
theorem c5_no_error_on_antipodal :
    (fractal_interpolate (1, 0, 0) (-1, 0, 0) (.scalar 1) ((fun _ => 0), 0)).1 =
      vzero := by
  simp only [fractal_interpolate, scale, vdiv, vmul, vnorm, dot, vzero,
    Prod.mk_add_mk]
  norm_num

/-- C5 amended: `fractal_interpolate` contains no degenerate-midpoint guard;
when the midpoint `0.5 * (v1 + v2)` has zero norm it returns a value anyway
(the zero vector in the real model, where division by zero is zero), and no
error of any kind exists in the function. -/
theorem c5_zero_midpoint_returns_zero (v1 v2 : Vec3) (factor : Factor) (g : Rng)
    (h : vnorm (scale 0.5 (v1 + v2)) = 0) :
    (fractal_interpolate v1 v2 factor g).1 = vzero := by
  rcases factor with x | ⟨lo, hi⟩
  · simp only [fractal_interpolate, uniform]
    rw [h]
    simp [vdiv, vmul, vzero]
  · simp only [fractal_interpolate, uniform]
    rw [h]
    simp [vdiv, vmul, vzero]

/-- Witness for the amended C5 at the antipodal octahedron vertices. -/
theorem c5_zero_midpoint_returns_zero_witness :
    vnorm (scale 0.5 (((1 : ℝ), (0 : ℝ), (0 : ℝ)) + ((-1 : ℝ), (0 : ℝ), (0 : ℝ)))) = 0 ∧
    (fractal_interpolate (1, 0, 0) (-1, 0, 0) (.pair 0 2) ((fun _ => 0), 0)).1 =
      vzero := by
  have h : vnorm (scale 0.5 (((1 : ℝ), (0 : ℝ), (0 : ℝ)) +
      ((-1 : ℝ), (0 : ℝ), (0 : ℝ)))) = 0 := by
    simp only [vnorm, dot, scale, Prod.mk_add_mk]
    norm_num
  exact ⟨h, c5_zero_midpoint_returns_zero (1, 0, 0) (-1, 0, 0) (.pair 0 2)
    ((fun _ => 0), 0) h⟩

theorem colorscaleLoop_ne_nil (x : ℝ × String) (acc rest : List (ℝ × String)) :
    colorscaleLoop (x :: acc) rest = (x :: acc) ++ rest := by
  induction rest generalizing acc with
  | nil => simp [colorscaleLoop]
  | cons p rest ih =>
      obtain ⟨e, c⟩ := p
      rw [colorscaleLoop]
      simp only [List.isEmpty_cons, Bool.false_eq_true, if_false, List.cons_append]
      rw [ih]
      simp

theorem planet_colorscale_eq (e : ℝ) (c : String) (rest : List (ℝ × String)) :
    planet_colorscale ((e, c) :: rest) = (0, c) :: (e, c) :: rest := by
  rw [planet_colorscale, colorscaleLoop]
  simp only [List.isEmpty_nil, if_true, List.nil_append]
  rw [show ([((0 : ℝ), c)] ++ [(e, c)]) = (0, c) :: [(e, c)] from rfl]
  rw [colorscaleLoop_ne_nil]
  simp

/-- C9 counterexample: with the lowest configured stop already at elevation
0.0 the loop still inserts the duplicate stop, producing two stops at 0
instead of leaving the single configured stop alone — refuting the claim
that the duplicate is inserted exactly when the lowest stop is above 0. -/
theorem c9_duplicate_inserted_at_zero :
    planet_colorscale [((0 : ℝ), "red")] = [(0, "red"), (0, "red")] ∧
    (planet_colorscale [((0 : ℝ), "red")]).length = 2 := ⟨rfl, rfl⟩

/-- C9 amended: the built colorscale always begins with a duplicate stop at
elevation 0.0 carrying the first configured stop's color — unconditionally,
not only when the lowest configured elevation is above 0 — followed by all
configured stops unchanged and in order. -/
theorem c9_colorscale_zero_stop (e : ℝ) (c : String) (rest : List (ℝ × String)) :
    planet_colorscale ((e, c) :: rest) = (0, c) :: (e, c) :: rest :=
  planet_colorscale_eq e c rest

/-- C8 counterexample: the non-ascending stop table
`[(0.5, red), (0.2, blue)]` is accepted and returned unchanged (after the
duplicate-at-zero insertion); no `NonMonotonicColorTable` error exists
anywhere in the code. -/
theorem c8_no_monotonicity_check :
    planet_colorscale [((0.5 : ℝ), "red"), (0.2, "blue")] =
      [(0, "red"), (0.5, "red"), (0.2, "blue")] := rfl

/-- C8 amended: `planet_colorscale` performs no monotonicity validation: a
non-ascending configured table passes through as-is, and the resulting
colorscale is itself not sorted ascending. -/
theorem c8_nonmonotonic_passthrough :
    planet_colorscale [((0.5 : ℝ), "red"), (0.2, "blue")] =
      [(0, "red"), (0.5, "red"), (0.2, "blue")] ∧
    ¬ sortedAscending (planet_colorscale [((0.5 : ℝ), "red"), (0.2, "blue")]) := by
  refine ⟨rfl, ?_⟩
  intro h
  rw [planet_colorscale_eq] at h
  simp only [sortedAscending, List.chain'_cons] at h
  norm_num at h

/-! ### Geometry of the planet variant with zero offset -/

theorem dot_comm (v w : Vec3) : dot v w = dot w v := by
  simp only [dot]; ring

theorem dot_self_nonneg (v : Vec3) : 0 ≤ dot v v := by
  simp only [dot]
  nlinarith [sq_nonneg v.1, sq_nonneg v.2.1, sq_nonneg v.2.2]

theorem vnorm_nonneg (v : Vec3) : 0 ≤ vnorm v := Real.sqrt_nonneg _

theorem dot_eq_one_of_vnorm_one {v : Vec3} (h : vnorm v = 1) : dot v v = 1 :=
  Real.sqrt_eq_one.1 h

theorem dot_scale_add_left (v1 v2 w : Vec3) :
    dot (scale 0.5 (v1 + v2)) w = 0.5 * (dot v1 w + dot v2 w) := by
  obtain ⟨x1, y1, z1⟩ := v1
  obtain ⟨x2, y2, z2⟩ := v2
  obtain ⟨x3, y3, z3⟩ := w
  simp only [dot, scale, Prod.mk_add_mk]
  ring

theorem dot_vdiv_left (v : Vec3) (c : ℝ) (w : Vec3) :
    dot (vdiv v c) w = dot v w / c := by
  simp only [dot, vdiv]
  ring

theorem dot_vdiv_both (v : Vec3) (c : ℝ) (w : Vec3) (d : ℝ) :
    dot (vdiv v c) (vdiv w d) = dot v w / (c * d) := by
  simp only [dot, vdiv]
  ring

/-- A nonnegativity bound for the dot product of a normalized midpoint with
any vector that has nonnegative dot products with both parents. -/
theorem unitize_dot_nonneg {v1 v2 w : Vec3} (h1 : 0 ≤ dot v1 w) (h2 : 0 ≤ dot v2 w) :
    0 ≤ dot (vdiv (scale 0.5 (v1 + v2)) (vnorm (scale 0.5 (v1 + v2)))) w := by
  rw [dot_vdiv_left, dot_scale_add_left]
  apply div_nonneg
  · linarith
  · exact vnorm_nonneg _

/-- The normalized midpoint of two unit parents at a non-obtuse angle is a
unit vector. -/
theorem unitize_vnorm_one {v1 v2 : Vec3} (h1 : vnorm v1 = 1) (h2 : vnorm v2 = 1)
    (hd : 0 ≤ dot v1 v2) :
    vnorm (vdiv (scale 0.5 (v1 + v2)) (vnorm (scale 0.5 (v1 + v2)))) = 1 := by
  have h11 := dot_eq_one_of_vnorm_one h1
  have h22 := dot_eq_one_of_vnorm_one h2
  have hdm : dot (scale 0.5 (v1 + v2)) (scale 0.5 (v1 + v2)) =
      0.25 * (dot v1 v1 + 2 * dot v1 v2 + dot v2 v2) := by
    obtain ⟨x1, y1, z1⟩ := v1
    obtain ⟨x2, y2, z2⟩ := v2
    simp only [dot, scale, Prod.mk_add_mk]
    ring
  have hpos : 0 < dot (scale 0.5 (v1 + v2)) (scale 0.5 (v1 + v2)) := by
    rw [hdm, h11, h22]
    linarith
  have hnm : 0 < vnorm (scale 0.5 (v1 + v2)) := Real.sqrt_pos.2 hpos
  have hsq : vnorm (scale 0.5 (v1 + v2)) * vnorm (scale 0.5 (v1 + v2)) =
      dot (scale 0.5 (v1 + v2)) (scale 0.5 (v1 + v2)) :=
    Real.mul_self_sqrt (le_of_lt hpos)
  rw [vnorm, dot_vdiv_both, hsq, div_self (ne_of_gt hpos)]
  exact Real.sqrt_one

theorem canon_canon (p q : ℕ) : canon (canon p q).1 (canon p q).2 = canon p q := by
  rcases le_total p q with h | h
  · rw [canon_of_le h]
    exact canon_of_le h
  · rw [canon_comm p q, canon_of_le h]
    exact canon_of_le h

theorem splitMap_canon {σ : Type} (interp : Interp σ) (vs : List Vec3) (faces : List Face)
    (g : σ) (p q : ℕ) :
    splitMap interp vs faces g p q =
      splitMap interp vs faces g (canon p q).1 (canon p q).2 := by
  rw [splitMap, splitMap, canon_canon]

theorem splitMap_comm {σ : Type} (interp : Interp σ) (vs : List Vec3) (faces : List Face)
    (g : σ) (p q : ℕ) :
    splitMap interp vs faces g p q = splitMap interp vs faces g q p := by
  rw [splitMap, splitMap, canon_comm]

theorem refine_mesh_faces_eq {σ : Type} (interp : Interp σ) (vs : List Vec3)
    (faces : List Face) (g : σ) :
    (refine_mesh interp vs faces g).2.1 =
      subdivided (splitMap interp vs faces g) faces :=
  (refineAux_spec interp vs faces vs [] g (PassInv_init interp vs)).2.2.2.2.1

theorem refine_mesh_old_values {σ : Type} (interp : Interp σ) (vs : List Vec3)
    (faces : List Face) (g : σ) :
    ∀ x, x < vs.length →
      (refine_mesh interp vs faces g).1.getD x vzero = vs.getD x vzero := by
  obtain ⟨t, ht⟩ :=
    (refineAux_spec interp vs faces vs [] g (PassInv_init interp vs)).1.grows
  intro x hx
  have h1 : (refine_mesh interp vs faces g).1 = vs ++ t := ht
  rw [h1]
  simp [List.getD_eq_getElem?_getD, List.getElem?_append_left hx]

theorem refine_mesh_splitMap_lookup {σ : Type} (interp : Interp σ) (vs : List Vec3)
    (faces : List Face) (g : σ) {e : ℕ × ℕ} (he : e ∈ allEdges faces) :
    slookup (refineAux interp faces vs [] g).splits e =
      some (splitMap interp vs faces g e.1 e.2) := by
  obtain ⟨hinv, hext, hstab, hsome, hfaces, hlen⟩ :=
    refineAux_spec interp vs faces vs [] g (PassInv_init interp vs)
  have h1 : (slookup (refineAux interp faces vs [] g).splits e).isSome :=
    (hsome e).2 (Or.inr he)
  obtain ⟨i, hi⟩ := Option.isSome_iff_exists.1 h1
  rw [hi, splitMap, canon_of_mem_allEdges he, hi]
  rfl

theorem refine_mesh_splitMap_value {σ : Type} (interp : Interp σ) (vs : List Vec3)
    (faces : List Face) (g : σ) (hvalid : ∀ f ∈ faces, validFace vs.length f)
    {e : ℕ × ℕ} (he : e ∈ allEdges faces) :
    ∃ g0 : σ,
      (refine_mesh interp vs faces g).1.getD
          (splitMap interp vs faces g e.1 e.2) vzero =
        (interp (vs.getD e.1 vzero) (vs.getD e.2 vzero) g0).1 := by
  obtain ⟨hinv, hext, hstab, hsome, hfaces, hlen⟩ :=
    refineAux_spec interp vs faces vs [] g (PassInv_init interp vs)
  have hi := refine_mesh_splitMap_lookup interp vs faces g he
  have hmem := slookup_mem hi
  have hb := allEdges_lt hvalid he
  exact hinv.vals _ hmem hb.1 hb.2

theorem refine_mesh_splitMap_bounds {σ : Type} (interp : Interp σ) (vs : List Vec3)
    (faces : List Face) (g : σ) {e : ℕ × ℕ} (he : e ∈ allEdges faces) :
    vs.length ≤ splitMap interp vs faces g e.1 e.2 ∧
      splitMap interp vs faces g e.1 e.2 < (refine_mesh interp vs faces g).1.length := by
  obtain ⟨hinv, hext, hstab, hsome, hfaces, hlen⟩ :=
    refineAux_spec interp vs faces vs [] g (PassInv_init interp vs)
  have hi := refine_mesh_splitMap_lookup interp vs faces g he
  have hmem := slookup_mem hi
  exact hinv.bounds _ hmem

theorem valid_subdivided {nV nV' : ℕ} {m : ℕ → ℕ → ℕ} {faces : List Face}
    (hv : ∀ f ∈ faces, validFace nV f)
    (Hsym : ∀ u v, m u v = m v u)
    (Hfr : ∀ e ∈ allEdges faces, m e.1 e.2 < nV')
    (hnn : nV ≤ nV') :
    ∀ u ∈ subdivided m faces, validFace nV' u := by
  intro u hu
  obtain ⟨f, hf, huf⟩ := List.mem_flatMap.1 hu
  obtain ⟨a, b, c⟩ := f
  obtain ⟨ha, hb, hc⟩ : a < nV ∧ b < nV ∧ c < nV := hv _ hf
  have eab : canon a b ∈ allEdges faces := mem_allEdges_of_mem hf (by simp [edgesOf])
  have ebc : canon b c ∈ allEdges faces := mem_allEdges_of_mem hf (by simp [edgesOf])
  have eca : canon c a ∈ allEdges faces := mem_allEdges_of_mem hf (by simp [edgesOf])
  have fab : m a b < nV' := m_prop_of_canon_mem (fun t => t < nV') Hsym Hfr eab
  have fbc : m b c < nV' := m_prop_of_canon_mem (fun t => t < nV') Hsym Hfr ebc
  have fca : m c a < nV' := m_prop_of_canon_mem (fun t => t < nV') Hsym Hfr eca
  simp only [childFaces, List.mem_cons, List.not_mem_nil, or_false] at huf
  rcases huf with rfl | rfl | rfl | rfl <;>
    refine ⟨?_, ?_, ?_⟩ <;> simp <;> omega

theorem planet_rule_collapse (dampen : ℝ) (i : ℕ) (v1 v2 : Vec3) (s : Rng)
    (h1 : vnorm v1 = 1) (h2 : vnorm v2 = 1) :
    (fractal_interpolate v1 v2
        (.pair (1 - 0 * dampen ^ i) (1 + 0 * dampen ^ i)) s).1 =
      vdiv (scale 0.5 (v1 + v2)) (vnorm (scale 0.5 (v1 + v2))) := by
  have h0 : (fractal_interpolate v1 v2
        (.pair (1 - 0 * dampen ^ i) (1 + 0 * dampen ^ i)) s).1 =
      vmul (vmul (vdiv (scale 0.5 (v1 + v2)) (vnorm (scale 0.5 (v1 + v2))))
          (0.5 * (vnorm v1 + vnorm v2)))
        ((1 - 0 * dampen ^ i) +
          ((1 + 0 * dampen ^ i) - (1 - 0 * dampen ^ i)) * s.1 s.2) := rfl
  rw [h0, h1, h2]
  rw [show (0.5 : ℝ) * (1 + 1) = 1 by norm_num, vmul_one]
  rw [show (1 - 0 * dampen ^ i) +
      ((1 + 0 * dampen ^ i) - (1 - 0 * dampen ^ i)) * s.1 s.2 = 1 by ring, vmul_one]

theorem planetInv_refine {σ : Type} (interp : Interp σ) (vs : List Vec3)
    (faces : List Face) (g : σ)
    (hinterp : ∀ (v1 v2 : Vec3) (s : σ), vnorm v1 = 1 → vnorm v2 = 1 →
      (interp v1 v2 s).1 = vdiv (scale 0.5 (v1 + v2)) (vnorm (scale 0.5 (v1 + v2))))
    (h : planetInv vs faces) :
    planetInv (refine_mesh interp vs faces g).1 (refine_mesh interp vs faces g).2.1 := by
  obtain ⟨hval, hunit, hdots⟩ := h
  have hup : ∀ x, x < vs.length → vnorm (vs.getD x vzero) = 1 := by
    intro x hx
    have hm : vs.getD x vzero ∈ vs := by
      rw [List.getD_eq_getElem?_getD, List.getElem?_eq_getElem hx, Option.getD_some]
      exact List.getElem_mem hx
    exact hunit _ hm
  have hMval : ∀ p q, canon p q ∈ allEdges faces →
      (refine_mesh interp vs faces g).1.getD (splitMap interp vs faces g p q) vzero =
        vdiv (scale 0.5 (vs.getD (canon p q).1 vzero + vs.getD (canon p q).2 vzero))
          (vnorm (scale 0.5 (vs.getD (canon p q).1 vzero + vs.getD (canon p q).2 vzero))) := by
    intro p q hpq
    rw [splitMap_canon]
    obtain ⟨g0, hg0⟩ := refine_mesh_splitMap_value interp vs faces g hval hpq
    have hb := allEdges_lt hval hpq
    rw [hg0, hinterp _ _ _ (hup _ hb.1) (hup _ hb.2)]
  refine ⟨?_, ?_, ?_⟩
  · rw [refine_mesh_faces_eq]
    have hnn : vs.length ≤ (refine_mesh interp vs faces g).1.length := by
      obtain ⟨t, ht, _⟩ := refine_mesh_tail_values interp vs faces g hval
      rw [ht]; simp
    refine valid_subdivided hval (fun u v => splitMap_comm interp vs faces g u v) ?_ hnn
    intro e he
    exact (refine_mesh_splitMap_bounds interp vs faces g he).2
  · intro v hv
    obtain ⟨t, ht, htv⟩ := refine_mesh_tail_values interp vs faces g hval
    rw [show (refine_mesh interp vs faces g).1 = vs ++ t from ht] at hv
    rcases List.mem_append.1 hv with hvm | hvm
    · exact hunit _ hvm
    · obtain ⟨e, he, g0, rfl⟩ := htv _ hvm
      have hb := allEdges_lt hval he
      rw [hinterp _ _ _ (hup _ hb.1) (hup _ hb.2)]
      obtain ⟨f, hf, hef⟩ := List.mem_flatMap.1 he
      have hm := edge_endpoints_mem hef
      exact unitize_vnorm_one (hup _ hb.1) (hup _ hb.2) (hdots f hf _ hm.1 _ hm.2)
  · rw [refine_mesh_faces_eq]
    intro u hu x hx y hy
    obtain ⟨f, hf, huf⟩ := List.mem_flatMap.1 hu
    obtain ⟨a, b, c⟩ := f
    obtain ⟨ha, hb, hc⟩ : a < vs.length ∧ b < vs.length ∧ c < vs.length := hval _ hf
    have hfd := hdots _ hf
    have hst : ∀ p ∈ vset (a, b, c),
        (refine_mesh interp vs faces g).1.getD p vzero = vs.getD p vzero := by
      intro p hp
      apply refine_mesh_old_values
      simp only [vset, List.mem_cons, List.not_mem_nil, or_false] at hp
      rcases hp with rfl | rfl | rfl <;> assumption
    have Hoo : ∀ p ∈ vset (a, b, c), ∀ q ∈ vset (a, b, c),
        0 ≤ dot ((refine_mesh interp vs faces g).1.getD p vzero)
          ((refine_mesh interp vs faces g).1.getD q vzero) := by
      intro p hp q hq
      rw [hst p hp, hst q hq]
      exact hfd p hp q hq
    have Hon : ∀ p ∈ vset (a, b, c), ∀ u1 w1, canon u1 w1 ∈ edgesOf (a, b, c) →
        0 ≤ dot ((refine_mesh interp vs faces g).1.getD p vzero)
          ((refine_mesh interp vs faces g).1.getD
            (splitMap interp vs faces g u1 w1) vzero) := by
      intro p hp u1 w1 he
      have he' : canon u1 w1 ∈ allEdges faces := mem_allEdges_of_mem hf he
      have hm := edge_endpoints_mem he
      rw [hst p hp, hMval _ _ he', dot_comm]
      exact unitize_dot_nonneg (hfd _ hm.1 p hp) (hfd _ hm.2 p hp)
    have Hno : ∀ u1 w1, canon u1 w1 ∈ edgesOf (a, b, c) → ∀ p ∈ vset (a, b, c),
        0 ≤ dot ((refine_mesh interp vs faces g).1.getD
            (splitMap interp vs faces g u1 w1) vzero)
          ((refine_mesh interp vs faces g).1.getD p vzero) := by
      intro u1 w1 he p hp
      rw [dot_comm]
      exact Hon p hp u1 w1 he
    have Hnn : ∀ u1 w1, canon u1 w1 ∈ edgesOf (a, b, c) →
        ∀ u2 w2, canon u2 w2 ∈ edgesOf (a, b, c) →
        0 ≤ dot ((refine_mesh interp vs faces g).1.getD
            (splitMap interp vs faces g u1 w1) vzero)
          ((refine_mesh interp vs faces g).1.getD
            (splitMap interp vs faces g u2 w2) vzero) := by
      intro u1 w1 he1 u2 w2 he2
      have he1' : canon u1 w1 ∈ allEdges faces := mem_allEdges_of_mem hf he1
      have he2' : canon u2 w2 ∈ allEdges faces := mem_allEdges_of_mem hf he2
      have hm1 := edge_endpoints_mem he1
      have hm2 := edge_endpoints_mem he2
      rw [hMval _ _ he1', hMval _ _ he2']
      refine unitize_dot_nonneg ?_ ?_
      · rw [dot_comm]
        exact unitize_dot_nonneg (hfd _ hm2.1 _ hm1.1) (hfd _ hm2.2 _ hm1.1)
      · rw [dot_comm]
        exact unitize_dot_nonneg (hfd _ hm2.1 _ hm1.2) (hfd _ hm2.2 _ hm1.2)
    have eab : canon a b ∈ edgesOf (a, b, c) := by simp [edgesOf]
    have ebc : canon b c ∈ edgesOf (a, b, c) := by simp [edgesOf]
    have eca : canon c a ∈ edgesOf (a, b, c) := by simp [edgesOf]
    have ema : a ∈ vset (a, b, c) := by simp [vset]
    have emb : b ∈ vset (a, b, c) := by simp [vset]
    have emc : c ∈ vset (a, b, c) := by simp [vset]
    simp only [childFaces, List.mem_cons, List.not_mem_nil, or_false] at huf
    rcases huf with rfl | rfl | rfl | rfl <;>
      simp only [vset, List.mem_cons, List.not_mem_nil, or_false] at hx hy
    · rcases hx with h | h | h <;> rcases hy with h' | h' | h' <;> rw [h, h']
      · exact Hnn c a eca c a eca
      · exact Hno c a eca a ema
      · exact Hnn c a eca a b eab
      · exact Hon a ema c a eca
      · exact Hoo a ema a ema
      · exact Hon a ema a b eab
      · exact Hnn a b eab c a eca
      · exact Hno a b eab a ema
      · exact Hnn a b eab a b eab
    · rcases hx with h | h | h <;> rcases hy with h' | h' | h' <;> rw [h, h']
      · exact Hnn a b eab a b eab
      · exact Hno a b eab b emb
      · exact Hnn a b eab b c ebc
      · exact Hon b emb a b eab
      · exact Hoo b emb b emb
      · exact Hon b emb b c ebc
      · exact Hnn b c ebc a b eab
      · exact Hno b c ebc b emb
      · exact Hnn b c ebc b c ebc
    · rcases hx with h | h | h <;> rcases hy with h' | h' | h' <;> rw [h, h']
      · exact Hnn b c ebc b c ebc
      · exact Hno b c ebc c emc
      · exact Hnn b c ebc c a eca
      · exact Hon c emc b c ebc
      · exact Hoo c emc c emc
      · exact Hon c emc c a eca
      · exact Hnn c a eca b c ebc
      · exact Hno c a eca c emc
      · exact Hnn c a eca c a eca
    · rcases hx with h | h | h <;> rcases hy with h' | h' | h' <;> rw [h, h']
      · exact Hnn a b eab a b eab
      · exact Hnn a b eab b c ebc
      · exact Hnn a b eab c a eca
      · exact Hnn b c ebc a b eab
      · exact Hnn b c ebc b c ebc
      · exact Hnn b c ebc c a eca
      · exact Hnn c a eca a b eab
      · exact Hnn c a eca b c ebc
      · exact Hnn c a eca c a eca

theorem planetInv_refineFrom {σ : Type} (rules : ℕ → Interp σ)
    (hrules : ∀ i (v1 v2 : Vec3) (s : σ), vnorm v1 = 1 → vnorm v2 = 1 →
      (rules i v1 v2 s).1 = vdiv (scale 0.5 (v1 + v2)) (vnorm (scale 0.5 (v1 + v2)))) :
    ∀ (k i : ℕ) (st : List Vec3 × List Face × σ), planetInv st.1 st.2.1 →
      planetInv (refineFrom rules i k st).1 (refineFrom rules i k st).2.1 := by
  intro k
  induction k with
  | zero => intro i st h; exact h
  | succ k ih =>
      intro i st h
      exact ih (i + 1) _ (planetInv_refine (rules i) st.1 st.2.1 st.2.2 (hrules i) h)

theorem octahedron_planetInv : planetInv octahedron_vertices octahedron_faces := by
  refine ⟨?_, ?_, ?_⟩
  · have h6 : octahedron_vertices.length = 6 := rfl
    rw [h6]
    decide
  · intro v hv
    fin_cases hv <;> simp only [vnorm, dot] <;> norm_num [Real.sqrt_one]
  · have g0 : octahedron_vertices.getD 0 vzero = ((1 : ℝ), (0 : ℝ), (0 : ℝ)) := rfl
    have g1 : octahedron_vertices.getD 1 vzero = ((0 : ℝ), (1 : ℝ), (0 : ℝ)) := rfl
    have g2 : octahedron_vertices.getD 2 vzero = ((0 : ℝ), (0 : ℝ), (1 : ℝ)) := rfl
    have g3 : octahedron_vertices.getD 3 vzero = ((-1 : ℝ), (0 : ℝ), (0 : ℝ)) := rfl
    have g4 : octahedron_vertices.getD 4 vzero = ((0 : ℝ), (-1 : ℝ), (0 : ℝ)) := rfl
    have g5 : octahedron_vertices.getD 5 vzero = ((0 : ℝ), (0 : ℝ), (-1 : ℝ)) := rfl
    intro f hf
    fin_cases hf <;>
      · intro x hx y hy
        fin_cases hx <;> fin_cases hy <;>
          · simp only [g0, g1, g2, g3, g4, g5, dot]
            norm_num

/-- C6: for the planet variant with `offset_range = 0`, any number of
refinement passes and any dampen value, every vertex of the produced mesh
has Euclidean norm exactly 1 (the factor range degenerates to `(1, 1)`, so
the mesh stays a pure sphere). -/
theorem c6_planet_zero_offset_unit_sphere (n : ℕ) (dampen : ℝ) (g : Rng) :
    ∀ v ∈ (cached_planet n 0 dampen g).1, vnorm v = 1 := by
  have h := planetInv_refineFrom
    (fun i v1 v2 => fractal_interpolate v1 v2
      (.pair (1 - 0 * dampen ^ i) (1 + 0 * dampen ^ i)))
    (fun i v1 v2 s h1 h2 => planet_rule_collapse dampen i v1 v2 s h1 h2)
    n 0 (octahedron_vertices, octahedron_faces, g) octahedron_planetInv
  exact h.2.1

theorem c6_planet_zero_offset_unit_sphere_witness :
    ((1 : ℝ), (0 : ℝ), (0 : ℝ)) ∈ (cached_planet 0 0 0 (fun _ => 0, 0)).1 ∧
      vnorm ((1 : ℝ), (0 : ℝ), (0 : ℝ)) = 1 :=
  ⟨List.mem_cons_self _ _,
    c6_planet_zero_offset_unit_sphere 0 0 (fun _ => 0, 0) ((1 : ℝ), (0 : ℝ), (0 : ℝ))
      (List.mem_cons_self _ _)⟩

end Fractal3d
